import Mathlib

/-!
# Naive-Bayes bag-of-n-grams classifier (`bag.go`)

A shallow embedding of `src/bag.go`.

Modelling conventions.

* A Go `map[string]V` is a `Finmap` keyed by `String`: finite, unordered, one
  value per key.  Equality of two maps is equality of their contents, which is
  all a Go program can observe of a map.
* Go `int` is modelled by `Int`.  Every counter of the program grows by one per
  trained document or per processed n-gram, so a 64-bit counter cannot wrap
  before `2^63` such steps; the counters, and the sum of two counters, are
  left unbounded.  `SmoothingParameter` is chosen by the caller and may be any
  `int`: the sum `vocab[key] + SmoothingParameter` is Go's 64-bit sum `goAdd`,
  which wraps.
* `float64` arithmetic is kept symbolic (`FloatExpr`): the embedding records
  which conversions, divisions, logarithms and additions the code performs and
  in which order.  `FloatExpr.eval` interprets such an expression in any
  carrier.  The theorems about scores read it in the real numbers: the
  conversion `float64(n)` is rounded as IEEE 754 rounds it (`toFloat64`, to the
  nearest value with a 53-bit significand, ties to even), division, logarithm
  and addition are exact, and a score has a value only when no divisor is zero
  and no logarithm is taken of a number that is not positive
  (`FloatExpr.Defined`), where `float64` gives an infinity or a NaN.
* `Vocabulary`, `Results`, `Config`, `Config.fill`, `NGram`, `NGram.String`
  and `toNGrams` are declared in files of the repository that are not part of
  `src/`; they are modelled from the specification and marked as such.
-/

namespace NaiveBayes

/-! ## Go maps -/

/-- Go `map[string]V`. -/
abbrev GoMap (V : Type) : Type := Finmap (fun _ : String => V)

namespace GoMap

variable {V W : Type}

/-- Go `m[k]` as an expression: the stored value, or the zero value of the
value type when `k` is not a key. -/
def get [Zero V] (m : GoMap V) (k : String) : V :=
  (Finmap.lookup k m).getD 0

/-- Go `m[k] = x`. -/
def set (m : GoMap V) (k : String) (x : V) : GoMap V :=
  Finmap.insert k x m

/-- Go `m[k]++` on an integer-valued map. -/
def incr (m : GoMap Int) (k : String) : GoMap Int :=
  m.set k (m.get k + 1)

/-- Go `len(m)`. -/
def len (m : GoMap V) : Int :=
  (m.keys.card : Int)

/-- Entry-wise image of an association list: the keys stay, each value `v`
stored under `k` becomes `f k v`. -/
def mapEntries (f : String → V → W) (l : List (Sigma (fun _ : String => V))) :
    List (Sigma (fun _ : String => W)) :=
  l.map (fun e => ⟨e.1, f e.1 e.2⟩)

/-- The loop `r = make(map); for k, v := range m { r[k] = f(k, v) }`: every key
of `m` is visited once, so the outcome does not depend on the iteration
order. -/
def mapWithKey (f : String → V → W) (m : GoMap V) : GoMap W :=
  Finmap.liftOn m
    (fun al => AList.toFinmap
      ⟨mapEntries f al.entries, by
        have h := al.nodupKeys
        have hkeys : (mapEntries f al.entries).keys = al.entries.keys := by
          simp [mapEntries, List.keys, Function.comp_def]
        unfold List.NodupKeys at h ⊢
        rw [hkeys]; exact h⟩)
    (by
      intro a b hab
      apply AList.toFinmap_eq.mpr
      exact List.Perm.map _ hab)

end GoMap

/-! ## Go `int` and its conversion to `float64` -/

/-- The 64-bit two's complement integer that is congruent to `n` modulo
`2^64`. -/
def wrapInt (n : Int) : Int :=
  (n + 2 ^ 63) % 2 ^ 64 - 2 ^ 63

/-- Go `x + y` on `int`: the sum of two values of the range of `int` is taken
modulo `2^64`.  An integer of the model outside that range is no value of a Go
`int` (it can only come from a counter, which the model lets grow without
bound) and is added exactly. -/
def goAdd (x y : Int) : Int :=
  if (-2 ^ 63 ≤ x ∧ x < 2 ^ 63) ∧ (-2 ^ 63 ≤ y ∧ y < 2 ^ 63) then wrapInt (x + y) else x + y

/-- The multiple of `q` nearest to `a`; of two nearest multiples, the even
multiple of `q`. -/
def roundHalfEven (q a : Nat) : Nat :=
  if 2 * (a % q) < q then q * (a / q)
  else if q < 2 * (a % q) then q * (a / q + 1)
  else q * (a / q + (a / q) % 2)

/-- The number of binary digits of `a` beyond 53, at most `k`. -/
def excessBits : Nat → Nat → Nat
  | 0, _ => 0
  | k + 1, a => if a < 2 ^ 53 then 0 else excessBits k (a / 2) + 1

/-- The value of `float64(a)` for a natural number `a < 2^64`: `a` rounded to
53 significant binary digits, to nearest, ties to even. -/
def toFloat64Nat (a : Nat) : Nat :=
  roundHalfEven (2 ^ excessBits 11 a) a

/-- The value of the Go conversion `float64(n)` of an `int`: an integer again,
since `float64` represents every integer up to `2^53` in magnitude and
multiples of a power of two beyond. -/
def toFloat64 (n : Int) : Int :=
  if 0 ≤ n then (toFloat64Nat n.toNat : Int) else -(toFloat64Nat (-n).toNat : Int)

/-! ## Types declared outside `src/` -/

/-- Modelled from the spec: `Vocabulary`, the per-label table from feature key
to occurrence count.  Its declaration is missing from `src/`; `v[k]++` and
`vocab[k] + b.c.SmoothingParameter` in `bag.go` make its values integers of the
type of `SmoothingParameter`. -/
abbrev Vocabulary : Type := GoMap Int

/-- Modelled from the spec: `Config`, the configuration of a model, with the
window length `NGramSize` and the additive smoothing `SmoothingParameter`.
Its declaration is missing from `src/`. -/
structure Config where
  NGramSize : Int
  SmoothingParameter : Int
  deriving DecidableEq, Repr

/-- Modelled from the spec: `Config.fill`, missing from `src/`.  "Default 2 if
unset or ≤0" for the window length, "Default 1.0 if unset or ≤0" for the
smoothing parameter. -/
def Config.fill (c : Config) : Config :=
  { NGramSize := if c.NGramSize ≤ 0 then 2 else c.NGramSize
    SmoothingParameter := if c.SmoothingParameter ≤ 0 then 1 else c.SmoothingParameter }

/-- Modelled from the spec: `NGram`, missing from `src/`: "an ordered sequence
of tokens ... drawn from consecutive positions in a tokenized input". -/
structure NGram where
  tokens : List String
  deriving DecidableEq, Repr

/-- Modelled from the spec: `NGram.String`, missing from `src/`: the "tokens
joined by a single separator ... (e.g., a single space), preserving order". -/
def NGram.String (n : NGram) : String :=
  " ".intercalate n.tokens

/-- Splitting on runs of whitespace, empty tokens discarded; `acc` holds the
characters of the token being read, last character first. -/
def fieldsAux (acc : List Char) : List Char → List String
  | [] => if acc.isEmpty then [] else [String.mk acc.reverse]
  | ch :: rest =>
    if ch.isWhitespace then
      if acc.isEmpty then fieldsAux [] rest
      else String.mk acc.reverse :: fieldsAux [] rest
    else fieldsAux (ch :: acc) rest

/-- Modelled from the spec: the tokens of a text, "whitespace-delimited". -/
def fields (input : String) : List String :=
  fieldsAux [] input.data

/-- Modelled from the spec: `toNGrams`, missing from `src/`: "one NGram per
valid starting position `i` in `[0, tokenCount - n]`, each containing tokens
`[i, i+n)`, in left-to-right order.  If `tokenCount < n`, produces an empty
sequence". -/
def toNGrams (input : String) (n : Int) : List NGram :=
  let ts := fields input
  (List.range ((ts.length : Int) - n + 1).toNat).map
    (fun i => ⟨(ts.drop i).take n.toNat⟩)

/-! ## Symbolic `float64` -/

/-- The `float64` computations of `bag.go`, kept symbolic. -/
inductive FloatExpr where
  /-- The conversion `float64(n)` of an integer. -/
  | ofInt : Int → FloatExpr
  /-- The quotient `x / y`. -/
  | div : FloatExpr → FloatExpr → FloatExpr
  /-- The call `math.Log(x)`. -/
  | log : FloatExpr → FloatExpr
  /-- The sum `x + y`. -/
  | add : FloatExpr → FloatExpr → FloatExpr
  deriving DecidableEq, Repr

/-- Interpretation of a symbolic `float64` computation in a carrier `R`, given
the four operations. -/
def FloatExpr.eval {R : Type} (conv : Int → R) (quot : R → R → R) (ln : R → R)
    (plus : R → R → R) : FloatExpr → R
  | .ofInt n => conv n
  | .div x y => quot (x.eval conv quot ln plus) (y.eval conv quot ln plus)
  | .log x => ln (x.eval conv quot ln plus)
  | .add x y => plus (x.eval conv quot ln plus) (y.eval conv quot ln plus)

/-- Modelled from the spec: `Results`, missing from `src/`: "a mapping label →
real number". -/
abbrev Results : Type := GoMap FloatExpr

/-! ## `bag.go` -/

/-- The type `Bag` of `bag.go`. -/
structure Bag where
  /-- Configuration values. -/
  c : Config
  /-- Vocabulary sets by label. -/
  vocabByLabel : GoMap Vocabulary
  /-- Count of trained documents by label. -/
  countByLabel : GoMap Int
  /-- Total count of trained documents. -/
  totalCount : Int
  deriving DecidableEq

/-- The function `New` of `bag.go`. -/
def New (c : Config) : Bag :=
  { c := c.fill, vocabByLabel := ∅, countByLabel := ∅, totalCount := 0 }

namespace Bag

/-- The method `getOrCreateVocabulary` of `bag.go`.  It returns the vocabulary
together with the model, in which an empty vocabulary has been stored under
`label` when there was none. -/
def getOrCreateVocabulary (b : Bag) (label : String) : Vocabulary × Bag :=
  match Finmap.lookup label b.vocabByLabel with
  | some v => (v, b)
  | none => (∅, { b with vocabByLabel := b.vocabByLabel.set label ∅ })

/-- The method `Train` of `bag.go`.  The Go variable `v` is a reference to the
map stored under `label`, so the increments of the loop are increments of that
stored map: the model writes the result of the loop back under `label`. -/
def Train (b : Bag) (input label : String) : Bag :=
  let ns := toNGrams input b.c.NGramSize
  let p := b.getOrCreateVocabulary label
  let v := ns.foldl (fun v n => v.incr n.String) p.1
  let b1 : Bag := { p.2 with vocabByLabel := p.2.vocabByLabel.set label v }
  let b2 : Bag := { b1 with countByLabel := b1.countByLabel.incr label }
  { b2 with totalCount := b2.totalCount + 1 }

/-- The method `getPriorProbability` of `bag.go`. -/
def getPriorProbability (b : Bag) (label : String) : FloatExpr :=
  let count := FloatExpr.ofInt (b.countByLabel.get label)
  let total := FloatExpr.ofInt b.totalCount
  .log (.div count total)

/-- The method `getProbability` of `bag.go`.  The sum of line 61 adds two
counters; the sum of line 66 adds a counter and the caller's
`SmoothingParameter`, as Go ints, before the conversion to `float64`. -/
def getProbability (b : Bag) (ns : List NGram) (label : String) (vocab : Vocabulary) :
    FloatExpr :=
  let probability := b.getPriorProbability label
  let countsByLabel := FloatExpr.ofInt (b.countByLabel.get label + vocab.len)
  ns.foldl
    (fun probability n =>
      let count := FloatExpr.ofInt (goAdd (vocab.get n.String) b.c.SmoothingParameter)
      .add probability (.log (.div count countsByLabel)))
    probability

/-- The method `GetResults` of `bag.go`. -/
def GetResults (b : Bag) (input : String) : Results :=
  let ns := toNGrams input b.c.NGramSize
  b.vocabByLabel.mapWithKey (fun label vocab => b.getProbability ns label vocab)

/-- A sequence of `Train` calls, given as `(text, label)` pairs, made one after
the other. -/
def trainAll (b : Bag) (docs : List (String × String)) : Bag :=
  docs.foldl (fun b d => b.Train d.1 d.2) b

end Bag

/-! ## Reading the real value of a score -/

/-- No division of the computation `e` has a zero divisor and no logarithm is
taken of a number that is not positive: the operations at which `float64`
gives an infinity or a NaN.  The operands are read as in `FloatExpr.IsReal`. -/
def FloatExpr.Defined : FloatExpr → Prop
  | .ofInt _ => True
  | .div x y => x.Defined ∧ y.Defined ∧
      y.eval (fun n => ((toFloat64 n : Int) : ℝ)) (fun a b => a / b) Real.log
        (fun a b => a + b) ≠ 0
  | .log x => x.Defined ∧
      0 < x.eval (fun n => ((toFloat64 n : Int) : ℝ)) (fun a b => a / b) Real.log
        (fun a b => a + b)
  | .add x y => x.Defined ∧ y.Defined

/-- The symbolic `float64` computation `e` is defined and has the value `x`,
when every conversion `float64(n)` is rounded as IEEE 754 rounds it and the
divisions, logarithms and additions are carried out in exact real
arithmetic. -/
def FloatExpr.IsReal (e : FloatExpr) (x : ℝ) : Prop :=
  e.Defined ∧
    e.eval (fun n => ((toFloat64 n : Int) : ℝ)) (fun a b => a / b) Real.log
      (fun a b => a + b) = x

/-- The mapping `r` has an entry for `label`, and the real value of its score
is `x`. -/
def ScoreIs (r : Results) (label : String) (x : ℝ) : Prop :=
  ∃ e, Finmap.lookup label r = some e ∧ e.IsReal x

/-! ## Auxiliary definitions -/

/-- The feature keys of a text: the `String()` of each of its n-grams, in
order. -/
def keysOf (text : String) (n : Int) : List String :=
  (toNGrams text n).map NGram.String

/-- The sum of `m[l]` over the keys `l` of `m`. -/
def GoMap.sumValues (m : GoMap Int) : Int :=
  ∑ l ∈ m.keys, m.get l

/-- The invariants that `New` sets up and every `Train` call keeps. -/
structure Bag.Sound (b : Bag) : Prop where
  /-- The total is the sum of the per-label counts. -/
  total_eq : b.totalCount = b.countByLabel.sumValues
  /-- The two maps have the same labels. -/
  same_labels : ∀ l, l ∈ b.vocabByLabel ↔ l ∈ b.countByLabel
  /-- A label that is present has a positive count. -/
  count_pos : ∀ l, l ∈ b.countByLabel → 1 ≤ b.countByLabel.get l
  /-- No count is negative, and none exceeds the total. -/
  count_le : ∀ l, 0 ≤ b.countByLabel.get l ∧ b.countByLabel.get l ≤ b.totalCount
  /-- No feature count is negative. -/
  feature_nonneg : ∀ l v, Finmap.lookup l b.vocabByLabel = some v → ∀ k, 0 ≤ v.get k

/-! ## `GetResults` with the model handed back

A second reading of `GetResults`, `getProbability` and `getPriorProbability`,
statement by statement, in which every access to the receiver hands back the
receiver as the access leaves it, and in which the labels of `vocabByLabel`
are visited in a given order (Go leaves the order of a `range` over a map
unspecified). -/

/-- Go `m[k]` read in an expression, together with the map after the read:
reading a key, present or absent, stores nothing in a Go map. -/
def GoMap.read {V : Type} [Zero V] (m : GoMap V) (k : String) : V × GoMap V :=
  (m.get k, m)

/-- The method `getPriorProbability` of `bag.go`, with the model as the call
leaves it. -/
def Bag.getPriorProbabilityS (b : Bag) (label : String) : FloatExpr × Bag :=
  let rd := b.countByLabel.read label
  let b1 : Bag := { b with countByLabel := rd.2 }
  (.log (.div (.ofInt rd.1) (.ofInt b1.totalCount)), b1)

/-- The method `getProbability` of `bag.go`, with the model as the call leaves
it.  The argument `vocab` is the map stored under `label` in `vocabByLabel`,
so what the loop does to `vocab` it does to that stored map. -/
def Bag.getProbabilityS (b : Bag) (ns : List NGram) (label : String) (vocab : Vocabulary) :
    FloatExpr × Bag :=
  let pr := b.getPriorProbabilityS label
  let rd := pr.2.countByLabel.read label
  let b1 : Bag := { pr.2 with countByLabel := rd.2 }
  let countsByLabel := FloatExpr.ofInt (rd.1 + vocab.len)
  let loop := ns.foldl
    (fun (st : FloatExpr × Vocabulary) n =>
      let rv := st.2.read n.String
      let count := FloatExpr.ofInt (goAdd rv.1 b1.c.SmoothingParameter)
      (.add st.1 (.log (.div count countsByLabel)), rv.2))
    (pr.1, vocab)
  (loop.1, { b1 with vocabByLabel := b1.vocabByLabel.set label loop.2 })

/-- The method `GetResults` of `bag.go`, with the labels of `vocabByLabel`
visited in the order `order`, and with the model as the call leaves it. -/
def Bag.GetResultsS (b : Bag) (input : String) (order : List String) : Results × Bag :=
  let ns := toNGrams input b.c.NGramSize
  order.foldl
    (fun (st : Results × Bag) label =>
      match Finmap.lookup label st.2.vocabByLabel with
      | some vocab =>
        let pb := st.2.getProbabilityS ns label vocab
        (st.1.set label pb.1, pb.2)
      | none => st)
    (∅, b)

/-! ## Lemmas on Go maps -/

namespace GoMap

variable {V W : Type}

theorem lookup_set (m : GoMap V) (k k' : String) (x : V) :
    Finmap.lookup k' (m.set k x) = if k' = k then some x else Finmap.lookup k' m := by
  unfold set
  split
  · next h => subst h; exact Finmap.lookup_insert m
  · next h => exact Finmap.lookup_insert_of_ne m h

theorem get_set [Zero V] (m : GoMap V) (k k' : String) (x : V) :
    (m.set k x).get k' = if k' = k then x else m.get k' := by
  unfold get
  rw [lookup_set]
  split <;> rfl

theorem lookup_incr (m : GoMap Int) (k k' : String) :
    Finmap.lookup k' (m.incr k) = if k' = k then some (m.get k + 1) else Finmap.lookup k' m := by
  unfold incr
  exact lookup_set m k k' _

theorem get_incr (m : GoMap Int) (k k' : String) :
    (m.incr k).get k' = if k' = k then m.get k + 1 else m.get k' := by
  unfold incr
  exact get_set m k k' _

theorem keys_set (m : GoMap V) (k : String) (x : V) :
    (m.set k x).keys = insert k m.keys := by
  ext a
  simp [set, Finmap.mem_keys, Finmap.mem_insert]

theorem mem_set (m : GoMap V) (k k' : String) (x : V) :
    k' ∈ m.set k x ↔ k' = k ∨ k' ∈ m := by
  unfold set
  exact Finmap.mem_insert

theorem get_of_not_mem [Zero V] (m : GoMap V) (k : String) (h : k ∉ m) : m.get k = 0 := by
  unfold get
  rw [Finmap.lookup_eq_none.mpr h]
  rfl

theorem get_empty [Zero V] (k : String) : (∅ : GoMap V).get k = 0 := by
  unfold get
  rw [Finmap.lookup_empty]
  rfl

theorem lookup_mapWithKey (f : String → V → W) (m : GoMap V) (k : String) :
    Finmap.lookup k (m.mapWithKey f) = (Finmap.lookup k m).map (f k) := by
  induction m using Finmap.induction_on with
  | H al =>
    unfold mapWithKey
    rw [Finmap.liftOn_toFinmap, Finmap.lookup_toFinmap, Finmap.lookup_toFinmap]
    unfold AList.lookup
    obtain ⟨l, hl⟩ := al
    simp only
    clear hl
    induction l with
    | nil => rfl
    | cons e l ih =>
      obtain ⟨a, v⟩ := e
      by_cases h : a = k
      · subst h
        simp [mapEntries, List.dlookup_cons_eq]
      · simp only [mapEntries, List.map_cons] at ih ⊢
        rw [List.dlookup_cons_ne _ _ (Ne.symm h), List.dlookup_cons_ne _ _ (Ne.symm h)]
        exact ih

theorem mem_mapWithKey (f : String → V → W) (m : GoMap V) (k : String) :
    k ∈ m.mapWithKey f ↔ k ∈ m := by
  rw [← Finmap.lookup_isSome, ← Finmap.lookup_isSome, lookup_mapWithKey]
  cases Finmap.lookup k m <;> simp

theorem mapWithKey_empty (f : String → V → W) : (∅ : GoMap V).mapWithKey f = ∅ := by
  apply Finmap.ext_lookup
  intro k
  rw [lookup_mapWithKey, Finmap.lookup_empty, Finmap.lookup_empty]
  rfl

theorem set_set (m : GoMap V) (k : String) (x y : V) : (m.set k x).set k y = m.set k y := by
  unfold set
  exact Finmap.insert_insert m

theorem get_foldl_incr (keys : List String) (v : GoMap Int) (k : String) :
    (keys.foldl incr v).get k = v.get k + (keys.count k : Int) := by
  induction keys generalizing v with
  | nil => simp
  | cons a keys ih =>
    rw [List.foldl_cons, ih, get_incr, List.count_cons]
    by_cases h : k = a
    · subst h; simp; ring
    · have h' : ¬ (a == k) = true := by simpa using Ne.symm h
      simp [h, h']

theorem lookup_foldl_incr (keys : List String) (v : GoMap Int) (k : String) :
    Finmap.lookup k (keys.foldl incr v) =
      if k ∈ keys then some (v.get k + (keys.count k : Int)) else Finmap.lookup k v := by
  induction keys generalizing v with
  | nil => simp
  | cons a keys ih =>
    rw [List.foldl_cons, ih, get_incr, lookup_incr, List.count_cons]
    by_cases h : k = a
    · subst h
      by_cases hk : k ∈ keys
      · simp [hk]; ring
      · simp [hk, List.count_eq_zero_of_not_mem hk]
    · have h' : ¬ (a == k) = true := by simpa using Ne.symm h
      simp [h, h']

end GoMap

/-! ## What one `Train` call does to each field -/

namespace Bag

theorem Train_c (b : Bag) (text label : String) : (b.Train text label).c = b.c := by
  unfold Train getOrCreateVocabulary
  cases Finmap.lookup label b.vocabByLabel <;> rfl

theorem Train_totalCount (b : Bag) (text label : String) :
    (b.Train text label).totalCount = b.totalCount + 1 := by
  unfold Train getOrCreateVocabulary
  cases Finmap.lookup label b.vocabByLabel <;> rfl

theorem Train_countByLabel (b : Bag) (text label : String) :
    (b.Train text label).countByLabel = b.countByLabel.incr label := by
  unfold Train getOrCreateVocabulary
  cases Finmap.lookup label b.vocabByLabel <;> rfl

theorem Train_vocabByLabel (b : Bag) (text label : String) :
    (b.Train text label).vocabByLabel =
      b.vocabByLabel.set label
        ((keysOf text b.c.NGramSize).foldl GoMap.incr
          ((Finmap.lookup label b.vocabByLabel).getD ∅)) := by
  unfold Train getOrCreateVocabulary keysOf
  rw [List.foldl_map]
  cases h : Finmap.lookup label b.vocabByLabel with
  | none => simp only [Option.getD_none, GoMap.set_set]
  | some v => simp only [Option.getD_some]

theorem mem_Train_vocabByLabel (b : Bag) (text label l : String) :
    l ∈ (b.Train text label).vocabByLabel ↔ l = label ∨ l ∈ b.vocabByLabel := by
  rw [Train_vocabByLabel]
  exact GoMap.mem_set _ _ _ _

theorem mem_Train_countByLabel (b : Bag) (text label l : String) :
    l ∈ (b.Train text label).countByLabel ↔ l = label ∨ l ∈ b.countByLabel := by
  rw [Train_countByLabel]
  exact GoMap.mem_set _ _ _ _

theorem get_Train_countByLabel (b : Bag) (text label l : String) :
    (b.Train text label).countByLabel.get l =
      if l = label then b.countByLabel.get label + 1 else b.countByLabel.get l := by
  rw [Train_countByLabel]
  exact GoMap.get_incr _ _ _

/-! ## Sequences of `Train` calls -/

theorem trainAll_nil (b : Bag) : b.trainAll [] = b := rfl

theorem trainAll_cons (b : Bag) (d : String × String) (docs : List (String × String)) :
    b.trainAll (d :: docs) = (b.Train d.1 d.2).trainAll docs := rfl

theorem trainAll_append (b : Bag) (docs more : List (String × String)) :
    b.trainAll (docs ++ more) = (b.trainAll docs).trainAll more := by
  unfold trainAll
  exact List.foldl_append _ _ _ _

/-- A property that holds of a model and that each `Train` call keeps holds
after any sequence of `Train` calls. -/
theorem trainAll_keeps (P : Bag → Prop) (step : ∀ b text label, P b → P (b.Train text label))
    (docs : List (String × String)) (b : Bag) (h : P b) : P (b.trainAll docs) := by
  induction docs generalizing b with
  | nil => exact h
  | cons d docs ih => exact ih _ (step b d.1 d.2 h)

theorem trainAll_c (b : Bag) (docs : List (String × String)) : (b.trainAll docs).c = b.c := by
  induction docs generalizing b with
  | nil => rfl
  | cons d docs ih => rw [trainAll_cons, ih, Train_c]

theorem trainAll_totalCount (b : Bag) (docs : List (String × String)) :
    (b.trainAll docs).totalCount = b.totalCount + (docs.length : Int) := by
  induction docs generalizing b with
  | nil => simp [trainAll_nil]
  | cons d docs ih =>
    rw [trainAll_cons, ih, Train_totalCount, List.length_cons]
    push_cast
    ring

theorem mem_trainAll_vocabByLabel (b : Bag) (docs : List (String × String)) (l : String) :
    l ∈ (b.trainAll docs).vocabByLabel ↔ l ∈ b.vocabByLabel ∨ l ∈ docs.map Prod.snd := by
  induction docs generalizing b with
  | nil => simp [trainAll_nil]
  | cons d docs ih =>
    rw [trainAll_cons, ih, mem_Train_vocabByLabel, List.map_cons, List.mem_cons]
    tauto

end Bag

/-! ## The sum of the per-label counts -/

theorem GoMap.sumValues_incr (m : GoMap Int) (k : String) :
    (m.incr k).sumValues = m.sumValues + 1 := by
  unfold GoMap.sumValues
  have hkeys : (m.incr k).keys = insert k m.keys := GoMap.keys_set m k _
  have hoff : ∀ s : Finset String, k ∉ s →
      ∑ l ∈ s, (m.incr k).get l = ∑ l ∈ s, m.get l := by
    intro s hs
    apply Finset.sum_congr rfl
    intro l hl
    rw [GoMap.get_incr, if_neg]
    intro h
    exact hs (h ▸ hl)
  rw [hkeys]
  by_cases hk : k ∈ m.keys
  · rw [Finset.insert_eq_of_mem hk, ← Finset.add_sum_erase _ _ hk,
      ← Finset.add_sum_erase _ (fun l => m.get l) hk, hoff _ (Finset.not_mem_erase k _),
      GoMap.get_incr, if_pos rfl]
    ring
  · rw [Finset.sum_insert hk, hoff _ hk, GoMap.get_incr, if_pos rfl,
      GoMap.get_of_not_mem m k (fun h => hk (Finmap.mem_keys.mpr h))]
    ring

theorem GoMap.sumValues_empty : (∅ : GoMap Int).sumValues = 0 := by
  unfold GoMap.sumValues
  rw [Finmap.keys_empty]
  rfl

/-! ## Invariants of the models built by `New` and `Train` -/

theorem New_sound (c : Config) : (New c).Sound where
  total_eq := by
    show (0 : Int) = (∅ : GoMap Int).sumValues
    rw [GoMap.sumValues_empty]
  same_labels := by
    intro l
    show l ∈ (∅ : GoMap Vocabulary) ↔ l ∈ (∅ : GoMap Int)
    simp [Finmap.not_mem_empty]
  count_pos := by
    intro l hl
    exact absurd hl Finmap.not_mem_empty
  count_le := by
    intro l
    show 0 ≤ (∅ : GoMap Int).get l ∧ (∅ : GoMap Int).get l ≤ 0
    rw [GoMap.get_empty]
    exact ⟨le_refl _, le_refl _⟩
  feature_nonneg := by
    intro l v h
    have h' : Finmap.lookup l (∅ : GoMap Vocabulary) = some v := h
    rw [Finmap.lookup_empty] at h'
    cases h'

theorem Train_sound (b : Bag) (text label : String) (h : b.Sound) :
    (b.Train text label).Sound where
  total_eq := by
    rw [Bag.Train_totalCount, Bag.Train_countByLabel, GoMap.sumValues_incr, h.total_eq]
  same_labels := by
    intro l
    rw [Bag.mem_Train_vocabByLabel, Bag.mem_Train_countByLabel, h.same_labels]
  count_pos := by
    intro l hl
    rw [Bag.get_Train_countByLabel]
    rw [Bag.mem_Train_countByLabel] at hl
    split
    · have := (h.count_le label).1
      omega
    · next hne =>
      rcases hl with hl | hl
      · exact absurd hl hne
      · exact h.count_pos l hl
  count_le := by
    intro l
    rw [Bag.get_Train_countByLabel, Bag.Train_totalCount]
    have h1 := h.count_le l
    have h2 := h.count_le label
    split <;> omega
  feature_nonneg := by
    intro l v hv k
    rw [Bag.Train_vocabByLabel, GoMap.lookup_set] at hv
    split at hv
    · cases hv
      rw [GoMap.get_foldl_incr]
      have h0 : 0 ≤ ((Finmap.lookup label b.vocabByLabel).getD ∅).get k := by
        cases hl : Finmap.lookup label b.vocabByLabel with
        | none =>
          show 0 ≤ (∅ : GoMap Int).get k
          rw [GoMap.get_empty]
        | some w => exact h.feature_nonneg label w hl k
      have h1 : (0 : Int) ≤ (List.count k (keysOf text b.c.NGramSize) : Int) := Int.natCast_nonneg _
      omega
    · exact h.feature_nonneg l v hv k

theorem trainAll_sound (c : Config) (docs : List (String × String)) :
    ((New c).trainAll docs).Sound :=
  Bag.trainAll_keeps Bag.Sound Train_sound docs (New c) (New_sound c)

/-! ## Lemmas on Go `int` and on the conversion to `float64` -/

theorem goAdd_of_lt (x y : Int) (h0 : 0 < x + y) (h1 : x + y < 2 ^ 63) : goAdd x y = x + y := by
  unfold goAdd wrapInt
  split
  · omega
  · rfl

theorem goAdd_zero_left (y : Int) : goAdd 0 y = 0 + y := by
  unfold goAdd wrapInt
  split
  · omega
  · rfl

theorem roundHalfEven_lower (q a : Nat) : q * (a / q) ≤ roundHalfEven q a := by
  unfold roundHalfEven
  split
  · exact le_refl _
  · split
    · exact Nat.mul_le_mul_left q (Nat.le_succ _)
    · exact Nat.mul_le_mul_left q (Nat.le_add_right _ _)

theorem roundHalfEven_upper (q a : Nat) : roundHalfEven q a ≤ q * (a / q + 1) := by
  unfold roundHalfEven
  split
  · exact Nat.mul_le_mul_left q (Nat.le_succ _)
  · split
    · exact le_refl _
    · apply Nat.mul_le_mul_left q
      have := Nat.mod_lt (a / q) (by decide : 0 < 2)
      omega

theorem roundHalfEven_mul (q m : Nat) (hq : 0 < q) : roundHalfEven q (q * m) = q * m := by
  unfold roundHalfEven
  rw [Nat.mul_mod_right, Nat.mul_div_cancel_left m hq]
  simp [hq]

theorem roundHalfEven_mono (q a b : Nat) (hab : a ≤ b) :
    roundHalfEven q a ≤ roundHalfEven q b := by
  have hdiv : a / q ≤ b / q := Nat.div_le_div_right hab
  rcases Nat.lt_or_eq_of_le hdiv with hlt | heq
  · calc roundHalfEven q a ≤ q * (a / q + 1) := roundHalfEven_upper q a
      _ ≤ q * (b / q) := Nat.mul_le_mul_left q hlt
      _ ≤ roundHalfEven q b := roundHalfEven_lower q b
  · have ha := Nat.div_add_mod a q
    have hb := Nat.div_add_mod b q
    rw [heq] at ha
    have hmod : a % q ≤ b % q := by omega
    unfold roundHalfEven
    rw [heq]
    have h2 := Nat.mod_lt (b / q) (by decide : 0 < 2)
    split_ifs <;> first | exact le_refl _ | (apply Nat.mul_le_mul_left q; omega)

theorem roundHalfEven_one (a : Nat) : roundHalfEven 1 a = a := by
  unfold roundHalfEven
  simp [Nat.mod_one]

theorem excessBits_of_lt (k a : Nat) (h : a < 2 ^ 53) : excessBits k a = 0 := by
  cases k with
  | zero => rfl
  | succ k =>
    show (if a < 2 ^ 53 then 0 else excessBits k (a / 2) + 1) = 0
    rw [if_pos h]

theorem excessBits_succ_of_ge (k a : Nat) (h : 2 ^ 53 ≤ a) :
    excessBits (k + 1) a = excessBits k (a / 2) + 1 := by
  show (if a < 2 ^ 53 then 0 else excessBits k (a / 2) + 1) = excessBits k (a / 2) + 1
  rw [if_neg (Nat.not_lt.mpr h)]

theorem excessBits_le (k a : Nat) : excessBits k a ≤ k := by
  induction k generalizing a with
  | zero => exact le_refl _
  | succ k ih =>
    by_cases ha : a < 2 ^ 53
    · rw [excessBits_of_lt _ _ ha]
      exact Nat.zero_le _
    · rw [excessBits_succ_of_ge k a (Nat.not_lt.mp ha)]
      exact Nat.succ_le_succ (ih _)

theorem excessBits_mono (k a b : Nat) (hab : a ≤ b) : excessBits k a ≤ excessBits k b := by
  induction k generalizing a b with
  | zero => exact le_refl _
  | succ k ih =>
    by_cases ha : a < 2 ^ 53
    · rw [excessBits_of_lt _ _ ha]
      exact Nat.zero_le _
    · have ha' : 2 ^ 53 ≤ a := Nat.not_lt.mp ha
      rw [excessBits_succ_of_ge k a ha', excessBits_succ_of_ge k b (le_trans ha' hab)]
      exact Nat.succ_le_succ (ih _ _ (Nat.div_le_div_right hab))

theorem excessBits_lower (k a : Nat) (h : 2 ^ 53 ≤ a) : 2 ^ 52 * 2 ^ excessBits k a ≤ a := by
  induction k generalizing a with
  | zero =>
    show 2 ^ 52 * 2 ^ 0 ≤ a
    omega
  | succ k ih =>
    rw [excessBits_succ_of_ge k a h, pow_succ]
    by_cases h2 : 2 ^ 53 ≤ a / 2
    · have h3 := ih (a / 2) h2
      have hdiv := Nat.div_mul_le_self a 2
      calc 2 ^ 52 * (2 ^ excessBits k (a / 2) * 2)
          = 2 ^ 52 * 2 ^ excessBits k (a / 2) * 2 := by ring
        _ ≤ a / 2 * 2 := Nat.mul_le_mul_right 2 h3
        _ ≤ a := hdiv
    · rw [excessBits_of_lt k (a / 2) (Nat.not_le.mp h2)]
      omega

theorem excessBits_upper (k a : Nat) (h : excessBits k a < k) :
    a < 2 ^ 53 * 2 ^ excessBits k a := by
  induction k generalizing a with
  | zero => exact absurd h (Nat.not_lt_zero _)
  | succ k ih =>
    by_cases ha : a < 2 ^ 53
    · rw [excessBits_of_lt _ _ ha]
      omega
    · have ha' : 2 ^ 53 ≤ a := Nat.not_lt.mp ha
      rw [excessBits_succ_of_ge k a ha'] at h ⊢
      have h3 : a / 2 + 1 ≤ 2 ^ 53 * 2 ^ excessBits k (a / 2) := ih (a / 2) (by omega)
      rw [pow_succ]
      calc a < (a / 2 + 1) * 2 := by omega
        _ ≤ 2 ^ 53 * 2 ^ excessBits k (a / 2) * 2 := Nat.mul_le_mul_right 2 h3
        _ = 2 ^ 53 * (2 ^ excessBits k (a / 2) * 2) := by ring

theorem toFloat64Nat_mono (a b : Nat) (hab : a ≤ b) : toFloat64Nat a ≤ toFloat64Nat b := by
  unfold toFloat64Nat
  rcases Nat.lt_or_eq_of_le (excessBits_mono 11 a b hab) with hlt | heq
  · have hea : excessBits 11 a < 11 := lt_of_lt_of_le hlt (excessBits_le 11 b)
    have hupper := excessBits_upper 11 a hea
    have hb : 2 ^ 53 ≤ b := by
      by_contra hcon
      rw [excessBits_of_lt 11 b (by omega)] at hlt
      exact Nat.not_lt_zero _ hlt
    have hlower := excessBits_lower 11 b hb
    have hqa : 0 < 2 ^ excessBits 11 a := Nat.pos_of_ne_zero (by positivity)
    have hqb : 0 < 2 ^ excessBits 11 b := Nat.pos_of_ne_zero (by positivity)
    have hpow : 2 ^ 53 * 2 ^ excessBits 11 a ≤ 2 ^ 52 * 2 ^ excessBits 11 b := by
      have h1 : 2 ^ (excessBits 11 a + 1) ≤ 2 ^ excessBits 11 b :=
        Nat.pow_le_pow_right (by decide) hlt
      calc 2 ^ 53 * 2 ^ excessBits 11 a = 2 ^ 52 * 2 ^ (excessBits 11 a + 1) := by
            rw [pow_succ]; ring
        _ ≤ 2 ^ 52 * 2 ^ excessBits 11 b := Nat.mul_le_mul_left _ h1
    calc roundHalfEven (2 ^ excessBits 11 a) a
        ≤ roundHalfEven (2 ^ excessBits 11 a) (2 ^ excessBits 11 a * 2 ^ 53) :=
          roundHalfEven_mono _ _ _ (by rw [Nat.mul_comm]; exact hupper.le)
      _ = 2 ^ excessBits 11 a * 2 ^ 53 := roundHalfEven_mul _ _ hqa
      _ = 2 ^ 53 * 2 ^ excessBits 11 a := Nat.mul_comm _ _
      _ ≤ 2 ^ 52 * 2 ^ excessBits 11 b := hpow
      _ = 2 ^ excessBits 11 b * 2 ^ 52 := Nat.mul_comm _ _
      _ = roundHalfEven (2 ^ excessBits 11 b) (2 ^ excessBits 11 b * 2 ^ 52) :=
          (roundHalfEven_mul _ _ hqb).symm
      _ ≤ roundHalfEven (2 ^ excessBits 11 b) b :=
          roundHalfEven_mono _ _ _ (by rw [Nat.mul_comm]; exact hlower)
  · rw [heq]
    exact roundHalfEven_mono _ _ _ hab

theorem toFloat64Nat_of_le (a : Nat) (h : a ≤ 2 ^ 53) : toFloat64Nat a = a := by
  rcases Nat.lt_or_eq_of_le h with hlt | heq
  · unfold toFloat64Nat
    rw [excessBits_of_lt 11 a hlt, pow_zero, roundHalfEven_one]
  · subst heq
    decide

theorem toFloat64Nat_pos (a : Nat) (h : 0 < a) : 0 < toFloat64Nat a := by
  have h1 : toFloat64Nat 1 ≤ toFloat64Nat a := toFloat64Nat_mono 1 a h
  rw [toFloat64Nat_of_le 1 (by norm_num)] at h1
  exact h1

theorem toFloat64_of_nonneg (n : Int) (h : 0 ≤ n) : toFloat64 n = (toFloat64Nat n.toNat : Int) := by
  unfold toFloat64
  rw [if_pos h]

theorem toFloat64_pos (n : Int) (h : 0 < n) : 0 < toFloat64 n := by
  rw [toFloat64_of_nonneg n h.le]
  have : 0 < n.toNat := by omega
  exact_mod_cast toFloat64Nat_pos _ this

theorem toFloat64_mono_of_pos (a b : Int) (ha : 0 < a) (hab : a ≤ b) :
    toFloat64 a ≤ toFloat64 b := by
  rw [toFloat64_of_nonneg a ha.le, toFloat64_of_nonneg b (by omega)]
  have : a.toNat ≤ b.toNat := by omega
  exact_mod_cast toFloat64Nat_mono _ _ this

theorem toFloat64_of_abs_le (n : Int) (h1 : -2 ^ 53 ≤ n) (h2 : n ≤ 2 ^ 53) : toFloat64 n = n := by
  unfold toFloat64
  split
  · rw [toFloat64Nat_of_le]
    · omega
    · have : ((n.toNat : Nat) : Int) ≤ 2 ^ 53 := by omega
      exact_mod_cast this
  · rw [toFloat64Nat_of_le]
    · omega
    · have : (((-n).toNat : Nat) : Int) ≤ 2 ^ 53 := by omega
      exact_mod_cast this

/-! ## Lemmas on scores -/

theorem Bag.lookup_GetResults (b : Bag) (text label : String) :
    Finmap.lookup label (b.GetResults text) =
      (Finmap.lookup label b.vocabByLabel).map
        (fun vocab => b.getProbability (toNGrams text b.c.NGramSize) label vocab) := by
  unfold Bag.GetResults
  exact GoMap.lookup_mapWithKey _ _ _

theorem Bag.mem_GetResults (b : Bag) (text label : String) :
    label ∈ b.GetResults text ↔ label ∈ b.vocabByLabel := by
  unfold Bag.GetResults
  exact GoMap.mem_mapWithKey _ _ _

/-- The real value of an accumulation loop `p += math.Log(float64(f n) / d)`
started at `p0`, when the divisor and every `f n` are positive. -/
theorem FloatExpr.isReal_foldl (f : NGram → Int) (d : Int) (ns : List NGram)
    (p0 : FloatExpr) (x0 : ℝ) (h0 : p0.IsReal x0) (hd : 0 < d) (hf : ∀ n ∈ ns, 0 < f n) :
    (ns.foldl (fun p n => FloatExpr.add p (.log (.div (.ofInt (f n)) (.ofInt d)))) p0).IsReal
      (x0 + (ns.map (fun n =>
        Real.log (((toFloat64 (f n) : Int) : ℝ) / ((toFloat64 d : Int) : ℝ)))).sum) := by
  induction ns generalizing p0 x0 with
  | nil => simpa using h0
  | cons n ns ih =>
    rw [List.foldl_cons, List.map_cons, List.sum_cons, ← add_assoc]
    apply ih
    · have hd' : (0 : ℝ) < ((toFloat64 d : Int) : ℝ) := by exact_mod_cast toFloat64_pos d hd
      have hn' : (0 : ℝ) < ((toFloat64 (f n) : Int) : ℝ) := by
        exact_mod_cast toFloat64_pos (f n) (hf n (List.mem_cons_self _ _))
      unfold FloatExpr.IsReal at h0 ⊢
      simp only [FloatExpr.Defined, FloatExpr.eval, h0.2]
      exact ⟨⟨h0.1, ⟨trivial, trivial, ne_of_gt hd'⟩, div_pos hn' hd'⟩, trivial⟩
    · intro m hm
      exact hf m (List.mem_cons_of_mem _ hm)

theorem Bag.isReal_getPriorProbability (b : Bag) (label : String)
    (hcount : 0 < b.countByLabel.get label) (htotal : 0 < b.totalCount) :
    (b.getPriorProbability label).IsReal
      (Real.log (((toFloat64 (b.countByLabel.get label) : Int) : ℝ) /
        ((toFloat64 b.totalCount : Int) : ℝ))) := by
  have hc : (0 : ℝ) < ((toFloat64 (b.countByLabel.get label) : Int) : ℝ) := by
    exact_mod_cast toFloat64_pos _ hcount
  have ht : (0 : ℝ) < ((toFloat64 b.totalCount : Int) : ℝ) := by
    exact_mod_cast toFloat64_pos _ htotal
  unfold Bag.getPriorProbability FloatExpr.IsReal
  simp only [FloatExpr.Defined, FloatExpr.eval]
  exact ⟨⟨⟨trivial, trivial, ne_of_gt ht⟩, div_pos hc ht⟩, trivial⟩

/-- The score that `getProbability` computes is defined, with the value of the
prior plus the sum of the per-feature logarithms, when the two counts and
every numerator are positive. -/
theorem Bag.isReal_getProbability (b : Bag) (ns : List NGram) (label : String)
    (vocab : Vocabulary)
    (hcount : 0 < b.countByLabel.get label) (htotal : 0 < b.totalCount)
    (hnum : ∀ n ∈ ns, 0 < goAdd (vocab.get n.String) b.c.SmoothingParameter) :
    (b.getProbability ns label vocab).IsReal
      (Real.log (((toFloat64 (b.countByLabel.get label) : Int) : ℝ) /
          ((toFloat64 b.totalCount : Int) : ℝ)) +
        (ns.map (fun n =>
          Real.log (((toFloat64 (goAdd (vocab.get n.String) b.c.SmoothingParameter) : Int) : ℝ) /
            ((toFloat64 (b.countByLabel.get label + vocab.len) : Int) : ℝ)))).sum) := by
  have hlen : (0 : Int) ≤ vocab.len := Int.natCast_nonneg _
  unfold Bag.getProbability
  exact FloatExpr.isReal_foldl (fun n => goAdd (vocab.get n.String) b.c.SmoothingParameter)
    (b.countByLabel.get label + vocab.len) ns _ _
    (Bag.isReal_getPriorProbability b label hcount htotal) (by omega) hnum

/-- The real value of the score of a label of the model, when the two counts
are positive and no sum `vocab[key] + SmoothingParameter` of the query wraps or
fails to be positive. -/
theorem Bag.scoreIs_GetResults (b : Bag) (text label : String) (vocab : Vocabulary)
    (hvocab : Finmap.lookup label b.vocabByLabel = some vocab)
    (hcount : 0 < b.countByLabel.get label) (htotal : 0 < b.totalCount)
    (hsum : ∀ n ∈ toNGrams text b.c.NGramSize,
      0 < vocab.get n.String + b.c.SmoothingParameter ∧
        vocab.get n.String + b.c.SmoothingParameter < 2 ^ 63) :
    ScoreIs (b.GetResults text) label
      (Real.log (((toFloat64 (b.countByLabel.get label) : Int) : ℝ) /
          ((toFloat64 b.totalCount : Int) : ℝ)) +
        ((toNGrams text b.c.NGramSize).map (fun n =>
          Real.log (((toFloat64 (vocab.get n.String + b.c.SmoothingParameter) : Int) : ℝ) /
            ((toFloat64 (b.countByLabel.get label + vocab.len) : Int) : ℝ)))).sum) := by
  refine ⟨b.getProbability (toNGrams text b.c.NGramSize) label vocab, ?_, ?_⟩
  · rw [Bag.lookup_GetResults, hvocab]
    rfl
  · have hadd : ∀ n ∈ toNGrams text b.c.NGramSize,
        goAdd (vocab.get n.String) b.c.SmoothingParameter =
          vocab.get n.String + b.c.SmoothingParameter :=
      fun n hn => goAdd_of_lt _ _ (hsum n hn).1 (hsum n hn).2
    have hmap : (toNGrams text b.c.NGramSize).map (fun n =>
          Real.log (((toFloat64 (vocab.get n.String + b.c.SmoothingParameter) : Int) : ℝ) /
            ((toFloat64 (b.countByLabel.get label + vocab.len) : Int) : ℝ))) =
        (toNGrams text b.c.NGramSize).map (fun n =>
          Real.log (((toFloat64 (goAdd (vocab.get n.String) b.c.SmoothingParameter) : Int) : ℝ) /
            ((toFloat64 (b.countByLabel.get label + vocab.len) : Int) : ℝ))) := by
      apply List.map_congr_left
      intro n hn
      rw [hadd n hn]
    rw [hmap]
    apply Bag.isReal_getProbability b _ label vocab hcount htotal
    intro n hn
    rw [hadd n hn]
    exact (hsum n hn).1

theorem ScoreIs_unique (r : Results) (label : String) (x y : ℝ)
    (hx : ScoreIs r label x) (hy : ScoreIs r label y) : x = y := by
  obtain ⟨e, he, _, hex⟩ := hx
  obtain ⟨e', he', _, hey⟩ := hy
  rw [he] at he'
  cases he'
  rw [← hex, ← hey]

/-! ## Commuting `Train` calls -/

theorem Bag.eq_of_fields (a b : Bag) (hc : a.c = b.c) (hv : a.vocabByLabel = b.vocabByLabel)
    (hn : a.countByLabel = b.countByLabel) (ht : a.totalCount = b.totalCount) : a = b := by
  cases a
  cases b
  simp only [Bag.mk.injEq]
  exact ⟨hc, hv, hn, ht⟩

theorem GoMap.foldl_incr_perm (v : GoMap Int) (ks ks' : List String) (h : ks.Perm ks') :
    ks.foldl GoMap.incr v = ks'.foldl GoMap.incr v := by
  apply Finmap.ext_lookup
  intro k
  rw [GoMap.lookup_foldl_incr, GoMap.lookup_foldl_incr, h.count_eq k]
  simp only [h.mem_iff]

theorem GoMap.incr_comm (m : GoMap Int) (k k' : String) :
    (m.incr k).incr k' = (m.incr k').incr k := by
  apply Finmap.ext_lookup
  intro a
  simp only [GoMap.lookup_incr, GoMap.get_incr]
  by_cases h : k' = k
  · subst h; rfl
  · have h' : ¬ k = k' := fun e => h e.symm
    by_cases h1 : a = k <;> by_cases h2 : a = k' <;> simp_all

theorem Bag.Train_Train_comm (b : Bag) (t1 l1 t2 l2 : String) :
    (b.Train t1 l1).Train t2 l2 = (b.Train t2 l2).Train t1 l1 := by
  apply Bag.eq_of_fields
  · simp only [Bag.Train_c]
  · simp only [Bag.Train_vocabByLabel, Bag.Train_c, GoMap.lookup_set]
    by_cases h : l2 = l1
    · subst h
      simp only [if_true, Option.getD_some, GoMap.set_set, ← List.foldl_append]
      congr 1
      exact GoMap.foldl_incr_perm _ _ _ List.perm_append_comm
    · have h' : ¬ l1 = l2 := fun e => h e.symm
      simp only [if_neg h, if_neg h']
      unfold GoMap.set
      exact (Finmap.insert_insert_of_ne _ h).symm
  · simp only [Bag.Train_countByLabel]
    exact GoMap.incr_comm _ _ _
  · simp only [Bag.Train_totalCount]

theorem Bag.trainAll_perm (docs docs' : List (String × String)) (h : docs.Perm docs')
    (b : Bag) : b.trainAll docs = b.trainAll docs' := by
  induction h generalizing b with
  | nil => rfl
  | cons d _ ih => exact ih (b.Train d.1 d.2)
  | swap d d' l =>
    rw [Bag.trainAll_cons, Bag.trainAll_cons, Bag.trainAll_cons, Bag.trainAll_cons,
      Bag.Train_Train_comm]
  | trans _ _ ih1 ih2 => exact (ih1 b).trans (ih2 b)

/-! ## The claims -/

/-- C1: after any sequence of `Train` calls applied to the model returned by
`New`, `totalCount` is the number of calls made, and it is the sum of
`countByLabel[l]` over the labels `l` present in `countByLabel`. -/
theorem totalCount_eq_calls_eq_sum (c : Config) (docs : List (String × String)) :
    ((New c).trainAll docs).totalCount = (docs.length : Int) ∧
    ((New c).trainAll docs).totalCount =
      ∑ l ∈ ((New c).trainAll docs).countByLabel.keys,
        ((New c).trainAll docs).countByLabel.get l := by
  constructor
  · rw [Bag.trainAll_totalCount]
    show (0 : Int) + _ = _
    rw [zero_add]
  · exact (trainAll_sound c docs).total_eq

/-- C2: after `Train(text, label)` the count of every feature key `k` in the
vocabulary of `label` is its count before (0 when the key or the vocabulary was
absent) plus the number of n-grams of the text whose `String()` is `k`;
`countByLabel[label]` and `totalCount` have each grown by one.  From a model
without vocabularies, a text whose n-gram keys are `["a b", "b c"]` leaves the
vocabulary of its label equal to the map with `"a b"` and `"b c"` at 1. -/
theorem Train_effect (b : Bag) (text label k : String) :
    ((Finmap.lookup label (b.Train text label).vocabByLabel).getD ∅).get k =
        ((Finmap.lookup label b.vocabByLabel).getD ∅).get k +
          (((toNGrams text b.c.NGramSize).map NGram.String).count k : Int)
    ∧ (b.Train text label).countByLabel.get label = b.countByLabel.get label + 1
    ∧ (b.Train text label).totalCount = b.totalCount + 1
    ∧ (b.vocabByLabel = ∅ →
        (toNGrams text b.c.NGramSize).map NGram.String = ["a b", "b c"] →
        Finmap.lookup label (b.Train text label).vocabByLabel =
          some (((∅ : Vocabulary).set "a b" 1).set "b c" 1)) := by
  refine ⟨?_, ?_, Bag.Train_totalCount b text label, ?_⟩
  · rw [Bag.Train_vocabByLabel, GoMap.lookup_set, if_pos rfl, Option.getD_some,
      GoMap.get_foldl_incr]
    rfl
  · rw [Bag.get_Train_countByLabel, if_pos rfl]
  · intro hempty hkeys
    rw [Bag.Train_vocabByLabel, GoMap.lookup_set, if_pos rfl, hempty, Finmap.lookup_empty]
    unfold keysOf
    rw [hkeys]
    simp only [Option.getD_none, List.foldl_cons, List.foldl_nil, GoMap.incr, GoMap.get_set,
      GoMap.get_empty]
    have hne : ¬ ("b c" = "a b") := by decide
    rw [if_neg hne]
    rfl

theorem Train_effect_witness :
    (New ⟨2, 1⟩).vocabByLabel = ∅ ∧
    (toNGrams "a b c" (New ⟨2, 1⟩).c.NGramSize).map NGram.String = ["a b", "b c"] ∧
    Finmap.lookup "x" ((New ⟨2, 1⟩).Train "a b c" "x").vocabByLabel =
      some (((∅ : Vocabulary).set "a b" 1).set "b c" 1) :=
  ⟨rfl, by decide, (Train_effect (New ⟨2, 1⟩) "a b c" "x" "a b").2.2.2 rfl (by decide)⟩

/-- C3 (the claim fails): with window length 1 and `SmoothingParameter`
`2^63 - 1`, after `Train("a", "x")` the label `"x"` has document count 1 and
the total is 1, but the sum `vocab["a"] + SmoothingParameter` wraps to `-2^63`:
the score of `"x"` for the query `"a"` is `log(1/1)` plus the logarithm of the
negative ratio `-2^63 / 2`, which is no number, and not the
`log(1/1) + log(2^63 / 2)` of the claim. -/
theorem GetResults_score_wraps :
    0 < ((New ⟨1, 9223372036854775807⟩).Train "a" "x").countByLabel.get "x"
    ∧ 0 < ((New ⟨1, 9223372036854775807⟩).Train "a" "x").totalCount
    ∧ Finmap.lookup "x" (((New ⟨1, 9223372036854775807⟩).Train "a" "x").GetResults "a") =
        some (.add (.log (.div (.ofInt 1) (.ofInt 1)))
          (.log (.div (.ofInt (-9223372036854775808)) (.ofInt 2))))
    ∧ ¬ ∃ x, ScoreIs (((New ⟨1, 9223372036854775807⟩).Train "a" "x").GetResults "a") "x" x := by
  have hlook : Finmap.lookup "x" (((New ⟨1, 9223372036854775807⟩).Train "a" "x").GetResults "a") =
      some (.add (.log (.div (.ofInt 1) (.ofInt 1)))
        (.log (.div (.ofInt (-9223372036854775808)) (.ofInt 2)))) := by decide
  refine ⟨by decide, by decide, hlook, ?_⟩
  rintro ⟨x, e, he, hdef, _⟩
  rw [hlook] at he
  cases he
  have h1 : toFloat64 (-9223372036854775808) = -9223372036854775808 := by decide
  have h2 : toFloat64 2 = 2 := by decide
  simp only [FloatExpr.Defined, FloatExpr.eval, h1, h2] at hdef
  have hneg := hdef.2.2
  norm_num at hneg

/-- C3 (amended): for a label of the model whose document count and the total
document count are positive, and a query whose n-grams each have a sum
`vocab[key] + SmoothingParameter` that is positive and below `2^63` (so that
the Go sum does not wrap), the score that `GetResults` gives to the label is
`log(countByLabel[label] / totalCount)` plus the sum, over the n-grams of the
query with multiplicity, of
`log((vocab[key] + SmoothingParameter) / (countByLabel[label] + len(vocab)))`,
with `vocab[key]` read as 0 for an absent key and one denominator for all
n-grams; each integer is converted to `float64` before the division, which
changes no integer up to `2^53` in magnitude; the prior is the logarithm of a
positive ratio. -/
theorem GetResults_score (b : Bag) (text label : String) (vocab : Vocabulary)
    (hvocab : Finmap.lookup label b.vocabByLabel = some vocab)
    (hcount : 0 < b.countByLabel.get label) (htotal : 0 < b.totalCount)
    (hsum : ∀ n ∈ toNGrams text b.c.NGramSize,
      0 < vocab.get n.String + b.c.SmoothingParameter ∧
        vocab.get n.String + b.c.SmoothingParameter < 2 ^ 63) :
    ScoreIs (b.GetResults text) label
      (Real.log (((toFloat64 (b.countByLabel.get label) : Int) : ℝ) /
          ((toFloat64 b.totalCount : Int) : ℝ)) +
        ((toNGrams text b.c.NGramSize).map (fun n =>
          Real.log (((toFloat64 (vocab.get n.String + b.c.SmoothingParameter) : Int) : ℝ) /
            ((toFloat64 (b.countByLabel.get label + vocab.len) : Int) : ℝ)))).sum)
    ∧ 0 < ((toFloat64 (b.countByLabel.get label) : Int) : ℝ) /
        ((toFloat64 b.totalCount : Int) : ℝ)
    ∧ ∀ n : Int, -2 ^ 53 ≤ n → n ≤ 2 ^ 53 → toFloat64 n = n := by
  refine ⟨Bag.scoreIs_GetResults b text label vocab hvocab hcount htotal hsum, ?_,
    toFloat64_of_abs_le⟩
  have h1 : (0 : ℝ) < ((toFloat64 (b.countByLabel.get label) : Int) : ℝ) := by
    exact_mod_cast toFloat64_pos _ hcount
  have h2 : (0 : ℝ) < ((toFloat64 b.totalCount : Int) : ℝ) := by
    exact_mod_cast toFloat64_pos _ htotal
  exact div_pos h1 h2

theorem GetResults_score_witness :
    0 < ((New ⟨1, 1⟩).Train "a" "x").countByLabel.get "x"
    ∧ 0 < ((New ⟨1, 1⟩).Train "a" "x").totalCount
    ∧ ∃ x, ScoreIs (((New ⟨1, 1⟩).Train "a" "x").GetResults "a") "x" x :=
  ⟨by decide, by decide, _,
    (GetResults_score ((New ⟨1, 1⟩).Train "a" "x") "a" "x" ((∅ : Vocabulary).set "a" 1)
      (by decide) (by decide) (by decide) (by decide)).1⟩

/-- C4: on a model built from `New` by a sequence of `Train` calls, the
labels of the mapping returned by `GetResults` are the labels passed to
`Train`, no other label has an entry, and no label has two entries. -/
theorem GetResults_labels (c : Config) (docs : List (String × String)) (text : String) :
    (((New c).trainAll docs).GetResults text).keys = (docs.map Prod.snd).toFinset ∧
    (∀ label, label ∈ ((New c).trainAll docs).GetResults text ↔ label ∈ docs.map Prod.snd) ∧
    (((New c).trainAll docs).GetResults text).entries.keys.Nodup := by
  have hmem : ∀ label,
      label ∈ ((New c).trainAll docs).GetResults text ↔ label ∈ docs.map Prod.snd := by
    intro label
    rw [Bag.mem_GetResults, Bag.mem_trainAll_vocabByLabel]
    have hnew : label ∉ (New c).vocabByLabel := Finmap.not_mem_empty
    constructor
    · rintro (h | h)
      · exact absurd h hnew
      · exact h
    · exact Or.inr
  refine ⟨?_, hmem, ?_⟩
  · ext label
    rw [Finmap.mem_keys, hmem, List.mem_toFinset]
  · exact Multiset.nodup_keys.mpr (((New c).trainAll docs).GetResults text).nodupKeys

/-- C5 (the claim fails): on the model returned by `New`, with no document
trained, `GetResults "anything"` does not fail; it returns the empty mapping. -/
theorem GetResults_untrained_returns_mapping :
    (New ⟨0, 0⟩).totalCount = 0 ∧ (New ⟨0, 0⟩).GetResults "anything" = ∅ :=
  ⟨rfl, GoMap.mapWithKey_empty _⟩

/-- C5 (amended): on a model on which no document has been trained,
`GetResults` returns a mapping in which no label has a score, so that no
score computed from the zero total is handed to the caller. -/
theorem GetResults_untrained_no_score (c : Config) (text label : String) :
    (New c).totalCount = 0 ∧ Finmap.lookup label ((New c).GetResults text) = none := by
  refine ⟨rfl, ?_⟩
  rw [Bag.lookup_GetResults]
  show Option.map _ (Finmap.lookup label (∅ : GoMap Vocabulary)) = none
  rw [Finmap.lookup_empty]
  rfl

/-- C6: for every configuration and every query, `GetResults` on the model
returned by `New`, with no `Train` call made, returns the empty mapping. -/
theorem GetResults_New_empty (c : Config) (text : String) :
    (New c).GetResults text = ∅ :=
  GoMap.mapWithKey_empty _

/-- C7 (the claim fails): with window length 1 and `SmoothingParameter`
`2^63 - 1`, which is positive, after `Train("a", "x")` the numerator
`vocab["a"] + SmoothingParameter` that `getProbability` computes for the query
n-gram `"a"` wraps to `-2^63`: it is not positive, and the score of `"x"`
contains the logarithm of a negative ratio. -/
theorem feature_term_wraps :
    0 < ((New ⟨1, 9223372036854775807⟩).trainAll [("a", "x")]).c.SmoothingParameter
    ∧ (Finmap.lookup "x" ((New ⟨1, 9223372036854775807⟩).trainAll [("a", "x")]).vocabByLabel).isSome = true
    ∧ ((Finmap.lookup "x" ((New ⟨1, 9223372036854775807⟩).trainAll [("a", "x")]).vocabByLabel).getD ∅).get "a" = 1
    ∧ goAdd (((Finmap.lookup "x" ((New ⟨1, 9223372036854775807⟩).trainAll [("a", "x")]).vocabByLabel).getD ∅).get "a")
        ((New ⟨1, 9223372036854775807⟩).trainAll [("a", "x")]).c.SmoothingParameter = -9223372036854775808
    ∧ ¬ (((New ⟨1, 9223372036854775807⟩).trainAll [("a", "x")]).getProbability (toNGrams "a" ((New ⟨1, 9223372036854775807⟩).trainAll [("a", "x")]).c.NGramSize) "x"
          ((Finmap.lookup "x" ((New ⟨1, 9223372036854775807⟩).trainAll [("a", "x")]).vocabByLabel).getD ∅)).Defined := by
  have hexpr : ((New ⟨1, 9223372036854775807⟩).trainAll [("a", "x")]).getProbability (toNGrams "a" ((New ⟨1, 9223372036854775807⟩).trainAll [("a", "x")]).c.NGramSize) "x"
      ((Finmap.lookup "x" ((New ⟨1, 9223372036854775807⟩).trainAll [("a", "x")]).vocabByLabel).getD ∅) =
      .add (.log (.div (.ofInt 1) (.ofInt 1)))
        (.log (.div (.ofInt (-9223372036854775808)) (.ofInt 2))) := by decide
  refine ⟨by decide, by decide, by decide, by decide, ?_⟩
  rw [hexpr]
  intro hdef
  have h1 : toFloat64 (-9223372036854775808) = -9223372036854775808 := by decide
  have h2 : toFloat64 2 = 2 := by decide
  simp only [FloatExpr.Defined, FloatExpr.eval, h1, h2] at hdef
  have hneg := hdef.2.2
  norm_num at hneg

/-- C7 (amended): on a model built from `New` by `Train` calls, with a
positive smoothing parameter, for every label of the model and every query
whose n-grams, seen in training or not, each have a sum
`vocab[key] + SmoothingParameter` below `2^63` (so that the Go sum does not
wrap): the denominator `countByLabel[label] + len(vocab)` is at least 1, the
numerator that `getProbability` computes for each n-gram is that sum and is
positive, each per-feature term is the logarithm of a positive ratio, and in
the whole score of the label nothing is divided by zero and no logarithm is
taken of a number that is not positive. -/
theorem feature_term_defined (c : Config) (docs : List (String × String))
    (label : String) (vocab : Vocabulary) (ns : List NGram)
    (hsmooth : 0 < ((New c).trainAll docs).c.SmoothingParameter)
    (hvocab : Finmap.lookup label ((New c).trainAll docs).vocabByLabel = some vocab)
    (hsum : ∀ n ∈ ns,
      vocab.get n.String + ((New c).trainAll docs).c.SmoothingParameter < 2 ^ 63) :
    docs ≠ []
    ∧ 1 ≤ ((New c).trainAll docs).countByLabel.get label + vocab.len
    ∧ (∀ n ∈ ns,
        goAdd (vocab.get n.String) ((New c).trainAll docs).c.SmoothingParameter =
          vocab.get n.String + ((New c).trainAll docs).c.SmoothingParameter
        ∧ 0 < goAdd (vocab.get n.String) ((New c).trainAll docs).c.SmoothingParameter
        ∧ (0 : ℝ) <
          ((toFloat64 (goAdd (vocab.get n.String)
              ((New c).trainAll docs).c.SmoothingParameter) : Int) : ℝ) /
            ((toFloat64 (((New c).trainAll docs).countByLabel.get label + vocab.len) : Int) : ℝ))
    ∧ (((New c).trainAll docs).getProbability ns label vocab).Defined := by
  have hs := trainAll_sound c docs
  have hmem : label ∈ ((New c).trainAll docs).vocabByLabel :=
    Finmap.mem_of_lookup_eq_some hvocab
  have hcount := hs.count_pos label ((hs.same_labels label).mp hmem)
  have htotal := (hs.count_le label).2
  have hlen : (0 : Int) ≤ vocab.len := Int.natCast_nonneg _
  have hden : 1 ≤ ((New c).trainAll docs).countByLabel.get label + vocab.len := by omega
  have hnum : ∀ n ∈ ns,
      goAdd (vocab.get n.String) ((New c).trainAll docs).c.SmoothingParameter =
          vocab.get n.String + ((New c).trainAll docs).c.SmoothingParameter
        ∧ 0 < goAdd (vocab.get n.String) ((New c).trainAll docs).c.SmoothingParameter := by
    intro n hn
    have hfeat := hs.feature_nonneg label vocab hvocab n.String
    have hadd := goAdd_of_lt (vocab.get n.String)
      ((New c).trainAll docs).c.SmoothingParameter (by omega) (hsum n hn)
    rw [hadd]
    exact ⟨rfl, by omega⟩
  refine ⟨?_, hden, ?_, ?_⟩
  · intro hnil
    rw [hnil] at hmem
    exact Finmap.not_mem_empty hmem
  · intro n hn
    refine ⟨(hnum n hn).1, (hnum n hn).2, ?_⟩
    apply div_pos
    · exact_mod_cast toFloat64_pos _ (hnum n hn).2
    · exact_mod_cast toFloat64_pos _ (by omega :
        0 < ((New c).trainAll docs).countByLabel.get label + vocab.len)
  · exact (Bag.isReal_getProbability ((New c).trainAll docs) ns label vocab (by omega)
      (by omega) (fun n hn => (hnum n hn).2)).1

theorem feature_term_defined_witness :
    0 < ((New ⟨1, 1⟩).trainAll [("a", "x")]).c.SmoothingParameter
    ∧ Finmap.lookup "x" ((New ⟨1, 1⟩).trainAll [("a", "x")]).vocabByLabel = some ((∅ : Vocabulary).set "a" 1)
    ∧ 1 ≤ ((New ⟨1, 1⟩).trainAll [("a", "x")]).countByLabel.get "x" + ((∅ : Vocabulary).set "a" 1).len
    ∧ (((New ⟨1, 1⟩).trainAll [("a", "x")]).getProbability (toNGrams "never seen" 1) "x"
        ((∅ : Vocabulary).set "a" 1)).Defined :=
  ⟨by decide, by decide,
    (feature_term_defined ⟨1, 1⟩ [("a", "x")] "x" ((∅ : Vocabulary).set "a" 1)
      (toNGrams "never seen" 1) (by decide) (by decide) (by decide)).2.1,
    (feature_term_defined ⟨1, 1⟩ [("a", "x")] "x" ((∅ : Vocabulary).set "a" 1)
      (toNGrams "never seen" 1) (by decide) (by decide) (by decide)).2.2.2⟩

/-- C8: on a model built from `New` by `Train` calls, every label present in
`vocabByLabel` has `1 ≤ countByLabel[label] ≤ totalCount`; the prior ratio
lies in `(0, 1]`, and neither the numerator nor the total that
`getPriorProbability` divides is zero. -/
theorem prior_ratio_bounds (c : Config) (docs : List (String × String)) (label : String)
    (hlabel : label ∈ ((New c).trainAll docs).vocabByLabel) :
    1 ≤ ((New c).trainAll docs).countByLabel.get label ∧
    ((New c).trainAll docs).countByLabel.get label ≤ ((New c).trainAll docs).totalCount ∧
    (0 : ℝ) < (((New c).trainAll docs).countByLabel.get label : ℝ) /
      (((New c).trainAll docs).totalCount : ℝ) ∧
    (((New c).trainAll docs).countByLabel.get label : ℝ) /
      (((New c).trainAll docs).totalCount : ℝ) ≤ 1 ∧
    ((New c).trainAll docs).countByLabel.get label ≠ 0 ∧
    ((New c).trainAll docs).totalCount ≠ 0 := by
  have hs := trainAll_sound c docs
  have hcount := hs.count_pos label ((hs.same_labels label).mp hlabel)
  have hle := (hs.count_le label).2
  have hc : (1 : ℝ) ≤ (((New c).trainAll docs).countByLabel.get label : ℝ) := by
    exact_mod_cast hcount
  have ht : (((New c).trainAll docs).countByLabel.get label : ℝ) ≤
      (((New c).trainAll docs).totalCount : ℝ) := by
    exact_mod_cast hle
  have htpos : (0 : ℝ) < (((New c).trainAll docs).totalCount : ℝ) := by linarith
  refine ⟨hcount, hle, div_pos (by linarith) htpos, ?_, by omega, by omega⟩
  rw [div_le_one htpos]
  exact ht

theorem prior_ratio_bounds_witness :
    "x" ∈ ((New ⟨1, 1⟩).trainAll [("a", "x"), ("b", "y")]).vocabByLabel ∧
    1 ≤ ((New ⟨1, 1⟩).trainAll [("a", "x"), ("b", "y")]).countByLabel.get "x" ∧
    ((New ⟨1, 1⟩).trainAll [("a", "x"), ("b", "y")]).countByLabel.get "x" ≤
      ((New ⟨1, 1⟩).trainAll [("a", "x"), ("b", "y")]).totalCount :=
  ⟨by decide,
    (prior_ratio_bounds ⟨1, 1⟩ [("a", "x"), ("b", "y")] "x" (by decide)).1,
    (prior_ratio_bounds ⟨1, 1⟩ [("a", "x"), ("b", "y")] "x" (by decide)).2.1⟩

/-- C9: on a model built from `New` by `Train` calls, the set of labels that
are keys of `vocabByLabel` is the set of labels that are keys of
`countByLabel`. -/
theorem same_label_sets (c : Config) (docs : List (String × String)) :
    ((New c).trainAll docs).vocabByLabel.keys = ((New c).trainAll docs).countByLabel.keys := by
  ext l
  rw [Finmap.mem_keys, Finmap.mem_keys]
  exact (trainAll_sound c docs).same_labels l

/-- C10: two `Train` calls commute, with equal labels or not: either order
gives the same model (vocabularies, per-label counts, total).  Hence two
training sequences that are permutations of one another give the same model,
and the same `GetResults` mapping for every query. -/
theorem Train_commutes (b : Bag) (t1 l1 t2 l2 : String) :
    (b.Train t1 l1).Train t2 l2 = (b.Train t2 l2).Train t1 l1 ∧
    ∀ docs docs' : List (String × String), docs.Perm docs' →
      b.trainAll docs = b.trainAll docs' ∧
      ∀ query, (b.trainAll docs).GetResults query = (b.trainAll docs').GetResults query := by
  refine ⟨Bag.Train_Train_comm b t1 l1 t2 l2, ?_⟩
  intro docs docs' hperm
  have h := Bag.trainAll_perm docs docs' hperm b
  refine ⟨h, ?_⟩
  intro query
  rw [h]

theorem Train_commutes_witness :
    [("a b", "x"), ("b a", "y"), ("a b", "x")].Perm [("a b", "x"), ("a b", "x"), ("b a", "y")] ∧
    (New ⟨1, 1⟩).trainAll [("a b", "x"), ("b a", "y"), ("a b", "x")] =
      (New ⟨1, 1⟩).trainAll [("a b", "x"), ("a b", "x"), ("b a", "y")] :=
  ⟨by decide,
    ((Train_commutes (New ⟨1, 1⟩) "a" "x" "b" "y").2
      [("a b", "x"), ("b a", "y"), ("a b", "x")] [("a b", "x"), ("a b", "x"), ("b a", "y")]
      (by decide)).1⟩

/-! ## Lemmas on the second reading of `GetResults` -/

theorem GoMap.set_of_lookup {V : Type} (m : GoMap V) (k : String) (x : V)
    (h : Finmap.lookup k m = some x) : m.set k x = m := by
  apply Finmap.ext_lookup
  intro a
  rw [GoMap.lookup_set]
  split
  · next e => rw [e, h]
  · rfl

theorem Bag.getPriorProbabilityS_eq (b : Bag) (label : String) :
    b.getPriorProbabilityS label = (b.getPriorProbability label, b) := rfl

theorem Bag.getProbabilityS_loop (s d : Int) (ns : List NGram) (vocab : Vocabulary)
    (p0 : FloatExpr) :
    ns.foldl
        (fun (st : FloatExpr × Vocabulary) n =>
          ((FloatExpr.add st.1
              (.log (.div (.ofInt (goAdd (st.2.read n.String).1 s)) (.ofInt d)))),
            (st.2.read n.String).2))
        (p0, vocab) =
      (ns.foldl
          (fun p n =>
            FloatExpr.add p (.log (.div (.ofInt (goAdd (vocab.get n.String) s)) (.ofInt d))))
          p0,
        vocab) := by
  induction ns generalizing p0 with
  | nil => rfl
  | cons n ns ih =>
    rw [List.foldl_cons, List.foldl_cons]
    exact ih _

theorem Bag.getProbabilityS_eq (b : Bag) (ns : List NGram) (label : String)
    (vocab : Vocabulary) (h : Finmap.lookup label b.vocabByLabel = some vocab) :
    b.getProbabilityS ns label vocab = (b.getProbability ns label vocab, b) := by
  unfold Bag.getProbabilityS Bag.getProbability
  simp only [Bag.getPriorProbabilityS_eq, GoMap.read]
  have hloop := Bag.getProbabilityS_loop b.c.SmoothingParameter
    (b.countByLabel.get label + vocab.len) ns vocab (b.getPriorProbability label)
  simp only [GoMap.read] at hloop
  rw [hloop]
  simp only [GoMap.set_of_lookup _ _ _ h]

/-- After the labels of `order` have been visited, the model is the one the
call started from, and the mapping holds the score of each visited label of the
model and is otherwise as it was. -/
theorem Bag.GetResultsS_foldl (b : Bag) (ns : List NGram) (order : List String)
    (r0 : Results) :
    order.foldl
        (fun (st : Results × Bag) label =>
          match Finmap.lookup label st.2.vocabByLabel with
          | some vocab =>
            ((st.1.set label (st.2.getProbabilityS ns label vocab).1),
              (st.2.getProbabilityS ns label vocab).2)
          | none => st)
        (r0, b) =
      (order.foldl
          (fun (r : Results) label =>
            match Finmap.lookup label b.vocabByLabel with
            | some vocab => r.set label (b.getProbability ns label vocab)
            | none => r)
          r0,
        b) := by
  induction order generalizing r0 with
  | nil => rfl
  | cons a order ih =>
    rw [List.foldl_cons, List.foldl_cons]
    cases h : Finmap.lookup a b.vocabByLabel with
    | none => simp only [h]; exact ih r0
    | some vocab =>
      simp only [h, Bag.getProbabilityS_eq b ns a vocab h]
      exact ih _

theorem Bag.lookup_foldl_scores (b : Bag) (ns : List NGram) (order : List String)
    (r0 : Results) (l : String) :
    Finmap.lookup l
        (order.foldl
          (fun (r : Results) label =>
            match Finmap.lookup label b.vocabByLabel with
            | some vocab => r.set label (b.getProbability ns label vocab)
            | none => r)
          r0) =
      if l ∈ order ∧ l ∈ b.vocabByLabel then
        (Finmap.lookup l b.vocabByLabel).map (fun vocab => b.getProbability ns l vocab)
      else Finmap.lookup l r0 := by
  induction order generalizing r0 with
  | nil => simp
  | cons a order ih =>
    rw [List.foldl_cons, ih]
    by_cases hin : l ∈ order ∧ l ∈ b.vocabByLabel
    · have hin' : l ∈ a :: order ∧ l ∈ b.vocabByLabel := ⟨List.mem_cons_of_mem _ hin.1, hin.2⟩
      rw [if_pos hin, if_pos hin']
    · rw [if_neg hin]
      cases h : Finmap.lookup a b.vocabByLabel with
      | none =>
        have hout : ¬ (l ∈ a :: order ∧ l ∈ b.vocabByLabel) := by
          rintro ⟨h1, h2⟩
          rcases List.mem_cons.mp h1 with e | e
          · rw [e] at h2
            exact (Finmap.lookup_eq_none.mp h) h2
          · exact hin ⟨e, h2⟩
        rw [if_neg hout]
      | some vocab =>
        simp only [GoMap.lookup_set]
        by_cases e : l = a
        · subst e
          have hmem : l ∈ b.vocabByLabel := Finmap.mem_of_lookup_eq_some h
          rw [if_pos rfl, if_pos ⟨List.mem_cons_self _ _, hmem⟩, h]
          rfl
        · have hout : ¬ (l ∈ a :: order ∧ l ∈ b.vocabByLabel) := by
            rintro ⟨h1, h2⟩
            rcases List.mem_cons.mp h1 with e' | e'
            · exact e e'
            · exact hin ⟨e', h2⟩
          rw [if_neg e, if_neg hout]

theorem Bag.GetResultsS_snd (b : Bag) (text : String) (order : List String) :
    (b.GetResultsS text order).2 = b := by
  unfold Bag.GetResultsS
  have h := Bag.GetResultsS_foldl b (toNGrams text b.c.NGramSize) order ∅
  simp only at h ⊢
  rw [h]

theorem Bag.GetResultsS_fst (b : Bag) (text : String) (order : List String)
    (horder : ∀ l, l ∈ order ↔ l ∈ b.vocabByLabel) :
    (b.GetResultsS text order).1 = b.GetResults text := by
  unfold Bag.GetResultsS
  have h := Bag.GetResultsS_foldl b (toNGrams text b.c.NGramSize) order ∅
  simp only at h ⊢
  rw [h]
  apply Finmap.ext_lookup
  intro l
  rw [Bag.lookup_foldl_scores, Bag.lookup_GetResults]
  by_cases hl : l ∈ b.vocabByLabel
  · rw [if_pos ⟨(horder l).mpr hl, hl⟩]
  · have hout : ¬ (l ∈ order ∧ l ∈ b.vocabByLabel) := fun hh => hl hh.2
    rw [if_neg hout, Finmap.lookup_empty, Finmap.lookup_eq_none.mpr hl]
    rfl

/-! ## Further lemmas on `Train` -/

theorem GoMap.len_empty {V : Type} : (∅ : GoMap V).len = 0 := by
  unfold GoMap.len
  rw [Finmap.keys_empty]
  rfl

theorem Bag.lookup_Train_vocabByLabel_of_ne (b : Bag) (text label l : String) (h : l ≠ label) :
    Finmap.lookup l (b.Train text label).vocabByLabel = Finmap.lookup l b.vocabByLabel := by
  rw [Bag.Train_vocabByLabel, GoMap.lookup_set, if_neg h]

theorem Bag.lookup_Train_countByLabel_of_ne (b : Bag) (text label l : String) (h : l ≠ label) :
    Finmap.lookup l (b.Train text label).countByLabel = Finmap.lookup l b.countByLabel := by
  rw [Bag.Train_countByLabel, GoMap.lookup_incr, if_neg h]

theorem Bag.lookup_Train_vocabByLabel_self (b : Bag) (text label : String) :
    Finmap.lookup label (b.Train text label).vocabByLabel =
      some ((keysOf text b.c.NGramSize).foldl GoMap.incr
        ((Finmap.lookup label b.vocabByLabel).getD ∅)) := by
  rw [Bag.Train_vocabByLabel, GoMap.lookup_set, if_pos rfl]

/-! ## The claims, continued -/

/-- C11: when the text has no n-gram and the label is not yet in the model,
`Train(text, label)` leaves the label present with an empty vocabulary,
`countByLabel[label] = 1` and `totalCount` one more than before; no feature
count of any label changes, the vocabularies of the other labels are as they
were, and `GetResults` afterwards has an entry for the label whose per-feature
terms all have the denominator `1 + 0 = 1`. -/
theorem Train_without_ngrams (b : Bag) (text label : String)
    (hnone : toNGrams text b.c.NGramSize = [])
    (hvocab : label ∉ b.vocabByLabel) (hcount : label ∉ b.countByLabel) :
    Finmap.lookup label (b.Train text label).vocabByLabel = some ∅
    ∧ (∅ : Vocabulary).len = 0
    ∧ (b.Train text label).countByLabel.get label = 1
    ∧ (b.Train text label).totalCount = b.totalCount + 1
    ∧ (∀ l k, ((Finmap.lookup l (b.Train text label).vocabByLabel).getD ∅).get k =
        ((Finmap.lookup l b.vocabByLabel).getD ∅).get k)
    ∧ (∀ l, l ≠ label →
        Finmap.lookup l (b.Train text label).vocabByLabel = Finmap.lookup l b.vocabByLabel)
    ∧ (b.Train text label).countByLabel.get label + (∅ : Vocabulary).len = 1
    ∧ (∀ query, Finmap.lookup label ((b.Train text label).GetResults query) =
        some ((toNGrams query b.c.NGramSize).foldl
          (fun p _ => FloatExpr.add p
            (.log (.div (.ofInt (0 + b.c.SmoothingParameter)) (.ofInt 1))))
          (.log (.div (.ofInt 1) (.ofInt (b.totalCount + 1)))))) := by
  have hkeys : keysOf text b.c.NGramSize = [] := by
    unfold keysOf
    rw [hnone]
    rfl
  have hlook : Finmap.lookup label b.vocabByLabel = none := Finmap.lookup_eq_none.mpr hvocab
  have hself : Finmap.lookup label (b.Train text label).vocabByLabel = some ∅ := by
    rw [Bag.lookup_Train_vocabByLabel_self, hkeys, hlook]
    rfl
  have hget : (b.Train text label).countByLabel.get label = 1 := by
    rw [Bag.get_Train_countByLabel, if_pos rfl, GoMap.get_of_not_mem _ _ hcount]
    rfl
  refine ⟨hself, GoMap.len_empty, hget, Bag.Train_totalCount b text label, ?_, ?_, ?_, ?_⟩
  · intro l k
    by_cases h : l = label
    · subst h
      rw [hself, hlook]
      rfl
    · rw [Bag.lookup_Train_vocabByLabel_of_ne b text label l h]
  · intro l h
    exact Bag.lookup_Train_vocabByLabel_of_ne b text label l h
  · rw [hget, GoMap.len_empty]
    rfl
  · intro query
    rw [Bag.lookup_GetResults, hself]
    unfold Bag.getProbability Bag.getPriorProbability
    simp only [Option.map_some', hget, GoMap.len_empty, GoMap.get_empty, Bag.Train_c,
      Bag.Train_totalCount, add_zero, goAdd_zero_left]

theorem Train_without_ngrams_witness :
    toNGrams "" (New ⟨2, 1⟩).c.NGramSize = [] ∧
    "x" ∉ (New ⟨2, 1⟩).vocabByLabel ∧ "x" ∉ (New ⟨2, 1⟩).countByLabel ∧
    Finmap.lookup "x" ((New ⟨2, 1⟩).Train "" "x").vocabByLabel = some ∅ ∧
    ((New ⟨2, 1⟩).Train "" "x").countByLabel.get "x" = 1 :=
  ⟨by decide, Finmap.not_mem_empty, Finmap.not_mem_empty,
    (Train_without_ngrams (New ⟨2, 1⟩) "" "x" (by decide) Finmap.not_mem_empty
      Finmap.not_mem_empty).1,
    (Train_without_ngrams (New ⟨2, 1⟩) "" "x" (by decide) Finmap.not_mem_empty
      Finmap.not_mem_empty).2.2.1⟩

/-- C12: a `Train` call removes nothing and lowers nothing: every label
present before is present after, in both maps; every feature key of every
vocabulary is still there with a count at least its previous count; every
`countByLabel` entry is at least its previous value; `totalCount` is strictly
greater. -/
theorem Train_monotone (b : Bag) (text label : String) :
    (∀ l, l ∈ b.vocabByLabel → l ∈ (b.Train text label).vocabByLabel)
    ∧ (∀ l, l ∈ b.countByLabel → l ∈ (b.Train text label).countByLabel)
    ∧ (∀ l v k x, Finmap.lookup l b.vocabByLabel = some v → Finmap.lookup k v = some x →
        ∃ v' x', Finmap.lookup l (b.Train text label).vocabByLabel = some v' ∧
          Finmap.lookup k v' = some x' ∧ x ≤ x')
    ∧ (∀ l x, Finmap.lookup l b.countByLabel = some x →
        ∃ x', Finmap.lookup l (b.Train text label).countByLabel = some x' ∧ x ≤ x')
    ∧ b.totalCount < (b.Train text label).totalCount := by
  refine ⟨?_, ?_, ?_, ?_, ?_⟩
  · intro l hl
    exact (Bag.mem_Train_vocabByLabel b text label l).mpr (Or.inr hl)
  · intro l hl
    exact (Bag.mem_Train_countByLabel b text label l).mpr (Or.inr hl)
  · intro l v k x hv hk
    by_cases h : l = label
    · subst h
      refine ⟨_, ((keysOf text b.c.NGramSize).count k : Int) + x,
        Bag.lookup_Train_vocabByLabel_self b text l, ?_, ?_⟩
      · rw [hv, Option.getD_some, GoMap.lookup_foldl_incr]
        have hget : v.get k = x := by
          unfold GoMap.get
          rw [hk]
          rfl
        by_cases hmem : k ∈ keysOf text b.c.NGramSize
        · rw [if_pos hmem, hget, add_comm]
        · rw [if_neg hmem, hk, List.count_eq_zero_of_not_mem hmem]
          simp
      · have h0 : (0 : Int) ≤ (List.count k (keysOf text b.c.NGramSize) : Int) :=
          Int.natCast_nonneg _
        omega
    · exact ⟨v, x, by rw [Bag.lookup_Train_vocabByLabel_of_ne b text label l h, hv], hk,
        le_refl x⟩
  · intro l x hx
    by_cases h : l = label
    · subst h
      refine ⟨x + 1, ?_, by omega⟩
      rw [Bag.Train_countByLabel, GoMap.lookup_incr, if_pos rfl]
      unfold GoMap.get
      rw [hx]
      rfl
    · exact ⟨x, by rw [Bag.lookup_Train_countByLabel_of_ne b text label l h, hx], le_refl x⟩
  · rw [Bag.Train_totalCount]
    omega

theorem Train_monotone_witness :
    "x" ∈ ((New ⟨1, 1⟩).Train "a" "x").vocabByLabel ∧
    "x" ∈ (((New ⟨1, 1⟩).Train "a" "x").Train "a b" "x").vocabByLabel :=
  ⟨by decide,
    (Train_monotone ((New ⟨1, 1⟩).Train "a" "x") "a b" "x").1 "x" (by decide)⟩

/-- C16: `Train(text, label)` touches only the entries of `label`: for every
other label, its vocabulary (keys and counts) and its `countByLabel` entry are
as before, it is present after the call exactly when it was present before, in
either map, and the configuration is unchanged. -/
theorem Train_frame (b : Bag) (text label other : String) (hne : other ≠ label) :
    Finmap.lookup other (b.Train text label).vocabByLabel = Finmap.lookup other b.vocabByLabel
    ∧ Finmap.lookup other (b.Train text label).countByLabel =
        Finmap.lookup other b.countByLabel
    ∧ (b.Train text label).countByLabel.get other = b.countByLabel.get other
    ∧ (other ∈ (b.Train text label).vocabByLabel ↔ other ∈ b.vocabByLabel)
    ∧ (other ∈ (b.Train text label).countByLabel ↔ other ∈ b.countByLabel)
    ∧ (b.Train text label).c = b.c
    ∧ (b.Train text label).c.NGramSize = b.c.NGramSize
    ∧ (b.Train text label).c.SmoothingParameter = b.c.SmoothingParameter := by
  refine ⟨Bag.lookup_Train_vocabByLabel_of_ne b text label other hne,
    Bag.lookup_Train_countByLabel_of_ne b text label other hne, ?_, ?_, ?_,
    Bag.Train_c b text label, ?_, ?_⟩
  · rw [Bag.get_Train_countByLabel, if_neg hne]
  · rw [Bag.mem_Train_vocabByLabel]
    exact ⟨fun h => h.resolve_left hne, Or.inr⟩
  · rw [Bag.mem_Train_countByLabel]
    exact ⟨fun h => h.resolve_left hne, Or.inr⟩
  · rw [Bag.Train_c]
  · rw [Bag.Train_c]

theorem Train_frame_witness :
    "y" ≠ "x" ∧
    Finmap.lookup "y" (((New ⟨1, 1⟩).Train "a" "y").Train "b" "x").vocabByLabel =
      Finmap.lookup "y" ((New ⟨1, 1⟩).Train "a" "y").vocabByLabel :=
  ⟨by decide, (Train_frame ((New ⟨1, 1⟩).Train "a" "y") "b" "x" "y" (by decide)).1⟩

/-- C14: `GetResults` leaves the model as it found it, whatever the query and
whatever the order in which the labels are visited: the configuration,
`vocabByLabel` (same labels, same keys, same counts: a lookup inserts no key),
`countByLabel` and `totalCount` after the call are those before the call. -/
theorem GetResults_leaves_model (b : Bag) (text : String) (order : List String) :
    (b.GetResultsS text order).2 = b
    ∧ (b.GetResultsS text order).2.c = b.c
    ∧ (b.GetResultsS text order).2.vocabByLabel = b.vocabByLabel
    ∧ (∀ l k, Finmap.lookup k ((Finmap.lookup l (b.GetResultsS text order).2.vocabByLabel).getD ∅)
        = Finmap.lookup k ((Finmap.lookup l b.vocabByLabel).getD ∅))
    ∧ (b.GetResultsS text order).2.countByLabel = b.countByLabel
    ∧ (b.GetResultsS text order).2.totalCount = b.totalCount := by
  have h := Bag.GetResultsS_snd b text order
  refine ⟨h, ?_, ?_, ?_, ?_, ?_⟩
  · rw [h]
  · rw [h]
  · intro l k
    rw [h]
  · rw [h]
  · rw [h]

/-- C15: `GetResults` is deterministic: visiting the labels of `vocabByLabel`
in one order or in another gives the same mapping, which is the mapping
`GetResults` of the embedding; and a second call with the same text, made on
the model as the first call left it, gives the mapping of the first call. -/
theorem GetResults_deterministic (b : Bag) (text : String) (order order' : List String)
    (horder : ∀ l, l ∈ order ↔ l ∈ b.vocabByLabel)
    (horder' : ∀ l, l ∈ order' ↔ l ∈ b.vocabByLabel) :
    (b.GetResultsS text order).1 = (b.GetResultsS text order').1
    ∧ (b.GetResultsS text order).1 = b.GetResults text
    ∧ ((b.GetResultsS text order).2.GetResultsS text order').1 =
        (b.GetResultsS text order).1 := by
  have h1 := Bag.GetResultsS_fst b text order horder
  have h2 := Bag.GetResultsS_fst b text order' horder'
  refine ⟨h1.trans h2.symm, h1, ?_⟩
  rw [Bag.GetResultsS_snd, h1, h2]

theorem GetResults_deterministic_witness :
    (∀ l, l ∈ ["x", "y"] ↔ l ∈ ((New ⟨1, 1⟩).trainAll [("a", "x"), ("b", "y")]).vocabByLabel) ∧
    (∀ l, l ∈ ["y", "x"] ↔ l ∈ ((New ⟨1, 1⟩).trainAll [("a", "x"), ("b", "y")]).vocabByLabel) ∧
    (((New ⟨1, 1⟩).trainAll [("a", "x"), ("b", "y")]).GetResultsS "a" ["x", "y"]).1 =
      (((New ⟨1, 1⟩).trainAll [("a", "x"), ("b", "y")]).GetResultsS "a" ["y", "x"]).1 :=
  have hxy : ∀ l, l ∈ ["x", "y"] ↔
      l ∈ ((New ⟨1, 1⟩).trainAll [("a", "x"), ("b", "y")]).vocabByLabel := by
    intro l
    rw [Bag.mem_trainAll_vocabByLabel]
    have hnew : l ∉ (New ⟨1, 1⟩).vocabByLabel := Finmap.not_mem_empty
    simp [hnew]
  have hyx : ∀ l, l ∈ ["y", "x"] ↔
      l ∈ ((New ⟨1, 1⟩).trainAll [("a", "x"), ("b", "y")]).vocabByLabel := by
    intro l
    rw [Bag.mem_trainAll_vocabByLabel]
    have hnew : l ∉ (New ⟨1, 1⟩).vocabByLabel := Finmap.not_mem_empty
    simp [hnew, or_comm]
  ⟨hxy, hyx,
    (GetResults_deterministic ((New ⟨1, 1⟩).trainAll [("a", "x"), ("b", "y")]) "a"
      ["x", "y"] ["y", "x"] hxy hyx).1⟩

/-! ## Comparing scores -/

/-- The model of the two-document scenario: window length 1, smoothing 1,
`"I love this"` trained as `"positive"` and `"I hate this"` as `"negative"`. -/
theorem scenario_scores :
    ScoreIs (((New ⟨1, 1⟩).trainAll [("I love this", "positive"), ("I hate this", "negative")]).GetResults "love")
      "positive" (Real.log (1 / 2) + Real.log (2 / 4))
    ∧ ScoreIs (((New ⟨1, 1⟩).trainAll [("I love this", "positive"), ("I hate this", "negative")]).GetResults "love")
      "negative" (Real.log (1 / 2) + Real.log (1 / 4)) := by
  have h1 : toFloat64 1 = 1 := by decide
  have h2 : toFloat64 2 = 2 := by decide
  have h4 : toFloat64 4 = 4 := by decide
  constructor
  · refine ⟨.add (.log (.div (.ofInt 1) (.ofInt 2))) (.log (.div (.ofInt 2) (.ofInt 4))),
      by decide, ?_⟩
    unfold FloatExpr.IsReal
    simp only [FloatExpr.Defined, FloatExpr.eval, h1, h2, h4]
    norm_num
  · refine ⟨.add (.log (.div (.ofInt 1) (.ofInt 2))) (.log (.div (.ofInt 1) (.ofInt 4))),
      by decide, ?_⟩
    unfold FloatExpr.IsReal
    simp only [FloatExpr.Defined, FloatExpr.eval, h1, h2, h4]
    norm_num

/-- C13 (the claim fails): with window length 1 and `SmoothingParameter`
`2^53`, after `Train("a", "A")` and `Train("b", "B")` the labels `"A"` and
`"B"` have equal document counts and equally many vocabulary keys, and the one
n-gram `"a"` of the query has the trained count 1 for `"A"` and 0 for `"B"`;
yet `float64(2^53 + 1)` is `float64(2^53)`, so the two scores are the same
number and the score of `"A"` is not strictly higher. -/
theorem equal_scores_at_large_smoothing :
    0 < ((New ⟨1, 9007199254740992⟩).trainAll [("a", "A"), ("b", "B")]).c.SmoothingParameter
    ∧ ((New ⟨1, 9007199254740992⟩).trainAll [("a", "A"), ("b", "B")]).countByLabel.get "A" = ((New ⟨1, 9007199254740992⟩).trainAll [("a", "A"), ("b", "B")]).countByLabel.get "B"
    ∧ ((Finmap.lookup "A" ((New ⟨1, 9007199254740992⟩).trainAll [("a", "A"), ("b", "B")]).vocabByLabel).getD ∅).len =
        ((Finmap.lookup "B" ((New ⟨1, 9007199254740992⟩).trainAll [("a", "A"), ("b", "B")]).vocabByLabel).getD ∅).len
    ∧ (∀ n ∈ toNGrams "a" ((New ⟨1, 9007199254740992⟩).trainAll [("a", "A"), ("b", "B")]).c.NGramSize,
        ((Finmap.lookup "B" ((New ⟨1, 9007199254740992⟩).trainAll [("a", "A"), ("b", "B")]).vocabByLabel).getD ∅).get n.String ≤
          ((Finmap.lookup "A" ((New ⟨1, 9007199254740992⟩).trainAll [("a", "A"), ("b", "B")]).vocabByLabel).getD ∅).get n.String)
    ∧ (∃ n ∈ toNGrams "a" ((New ⟨1, 9007199254740992⟩).trainAll [("a", "A"), ("b", "B")]).c.NGramSize,
        ((Finmap.lookup "B" ((New ⟨1, 9007199254740992⟩).trainAll [("a", "A"), ("b", "B")]).vocabByLabel).getD ∅).get n.String <
          ((Finmap.lookup "A" ((New ⟨1, 9007199254740992⟩).trainAll [("a", "A"), ("b", "B")]).vocabByLabel).getD ∅).get n.String)
    ∧ toFloat64 (9007199254740992 + 1) = toFloat64 9007199254740992
    ∧ ScoreIs (((New ⟨1, 9007199254740992⟩).trainAll [("a", "A"), ("b", "B")]).GetResults "a") "A"
        (Real.log (1 / 2) + Real.log (9007199254740992 / 2))
    ∧ ScoreIs (((New ⟨1, 9007199254740992⟩).trainAll [("a", "A"), ("b", "B")]).GetResults "a") "B"
        (Real.log (1 / 2) + Real.log (9007199254740992 / 2))
    ∧ ¬ ∃ x y, ScoreIs (((New ⟨1, 9007199254740992⟩).trainAll [("a", "A"), ("b", "B")]).GetResults "a") "A" x
        ∧ ScoreIs (((New ⟨1, 9007199254740992⟩).trainAll [("a", "A"), ("b", "B")]).GetResults "a") "B" y ∧ y < x := by
  have h1 : toFloat64 1 = 1 := by decide
  have h2 : toFloat64 2 = 2 := by decide
  have h3 : toFloat64 9007199254740993 = 9007199254740992 := by decide
  have h4 : toFloat64 9007199254740992 = 9007199254740992 := by decide
  have hA : ScoreIs (((New ⟨1, 9007199254740992⟩).trainAll [("a", "A"), ("b", "B")]).GetResults "a") "A"
      (Real.log (1 / 2) + Real.log (9007199254740992 / 2)) := by
    refine ⟨.add (.log (.div (.ofInt 1) (.ofInt 2)))
      (.log (.div (.ofInt 9007199254740993) (.ofInt 2))), by decide, ?_⟩
    unfold FloatExpr.IsReal
    simp only [FloatExpr.Defined, FloatExpr.eval, h1, h2, h3]
    norm_num
  have hB : ScoreIs (((New ⟨1, 9007199254740992⟩).trainAll [("a", "A"), ("b", "B")]).GetResults "a") "B"
      (Real.log (1 / 2) + Real.log (9007199254740992 / 2)) := by
    refine ⟨.add (.log (.div (.ofInt 1) (.ofInt 2)))
      (.log (.div (.ofInt 9007199254740992) (.ofInt 2))), by decide, ?_⟩
    unfold FloatExpr.IsReal
    simp only [FloatExpr.Defined, FloatExpr.eval, h1, h2, h4]
    norm_num
  refine ⟨by decide, by decide, by decide, by decide, by decide, by decide, hA, hB, ?_⟩
  rintro ⟨x, y, hx, hy, hlt⟩
  rw [ScoreIs_unique _ _ _ _ hx hA, ScoreIs_unique _ _ _ _ hy hB] at hlt
  exact lt_irrefl _ hlt

/-- C13 (amended): on a model built from `New` by `Train` calls, with a
positive smoothing parameter, let the labels `A` and `B` have equal document
counts and equally many distinct vocabulary keys, and let every n-gram of the
query have a trained count for `A` at least its trained count for `B` and a
sum `vocab[key] + SmoothingParameter` below `2^63` (so that the Go sum does not
wrap): then both scores are defined and `GetResults` gives `A` a score that is
not lower than the score of `B`.  In the scenario with window length 1 and
smoothing 1, `"I love this"` trained as `"positive"` and `"I hate this"` as
`"negative"`, the query `"love"` scores `log(1/2) + log(2/4)` for `"positive"`
and `log(1/2) + log(1/4)` for `"negative"`, which is strictly less. -/
theorem higher_counts_score_not_lower (c : Config) (docs : List (String × String)) (b : Bag)
    (A B query : String) (vA vB : Vocabulary)
    (hb : b = (New c).trainAll docs)
    (hsmooth : 0 < b.c.SmoothingParameter)
    (hA : Finmap.lookup A b.vocabByLabel = some vA)
    (hB : Finmap.lookup B b.vocabByLabel = some vB)
    (hcount : b.countByLabel.get A = b.countByLabel.get B)
    (hlen : vA.len = vB.len)
    (hge : ∀ n ∈ toNGrams query b.c.NGramSize, vB.get n.String ≤ vA.get n.String)
    (hsum : ∀ n ∈ toNGrams query b.c.NGramSize,
      vA.get n.String + b.c.SmoothingParameter < 2 ^ 63) :
    (∃ x y, ScoreIs (b.GetResults query) A x ∧ ScoreIs (b.GetResults query) B y ∧ y ≤ x)
    ∧ ScoreIs (((New ⟨1, 1⟩).trainAll [("I love this", "positive"), ("I hate this", "negative")]).GetResults "love")
      "positive" (Real.log (1 / 2) + Real.log (2 / 4))
    ∧ ScoreIs (((New ⟨1, 1⟩).trainAll [("I love this", "positive"), ("I hate this", "negative")]).GetResults "love")
      "negative" (Real.log (1 / 2) + Real.log (1 / 4))
    ∧ Real.log (1 / 2) + Real.log (1 / 4) < Real.log (1 / 2) + Real.log (2 / 4) := by
  have hs : b.Sound := hb ▸ trainAll_sound c docs
  have hcA := hs.count_pos A ((hs.same_labels A).mp (Finmap.mem_of_lookup_eq_some hA))
  have hcB := hs.count_pos B ((hs.same_labels B).mp (Finmap.mem_of_lookup_eq_some hB))
  have htA := (hs.count_le A).2
  have hsumA : ∀ n ∈ toNGrams query b.c.NGramSize,
      0 < vA.get n.String + b.c.SmoothingParameter ∧
        vA.get n.String + b.c.SmoothingParameter < 2 ^ 63 := by
    intro n hn
    have h0 := hs.feature_nonneg A vA hA n.String
    exact ⟨by omega, hsum n hn⟩
  have hsumB : ∀ n ∈ toNGrams query b.c.NGramSize,
      0 < vB.get n.String + b.c.SmoothingParameter ∧
        vB.get n.String + b.c.SmoothingParameter < 2 ^ 63 := by
    intro n hn
    have h0 := hs.feature_nonneg B vB hB n.String
    have h1 := hge n hn
    have h2 := hsum n hn
    exact ⟨by omega, by omega⟩
  refine ⟨⟨_, _,
    Bag.scoreIs_GetResults b query A vA hA (by omega) (by omega) hsumA,
    Bag.scoreIs_GetResults b query B vB hB (by omega) (by omega) hsumB, ?_⟩,
    scenario_scores.1, scenario_scores.2, ?_⟩
  · have hlenB : (0 : Int) ≤ vB.len := Int.natCast_nonneg _
    have hden : (0 : ℝ) < ((toFloat64 (b.countByLabel.get B + vB.len) : Int) : ℝ) := by
      exact_mod_cast toFloat64_pos _ (by omega : 0 < b.countByLabel.get B + vB.len)
    rw [hcount, hlen]
    apply add_le_add_left
    apply List.sum_le_sum
    intro n hn
    have hposB : (0 : ℝ) < ((toFloat64 (vB.get n.String + b.c.SmoothingParameter) : Int) : ℝ) := by
      exact_mod_cast toFloat64_pos _ (hsumB n hn).1
    have hmono : ((toFloat64 (vB.get n.String + b.c.SmoothingParameter) : Int) : ℝ) ≤
        ((toFloat64 (vA.get n.String + b.c.SmoothingParameter) : Int) : ℝ) := by
      have h1 := hge n hn
      exact_mod_cast toFloat64_mono_of_pos _ _ (hsumB n hn).1
        (by omega : vB.get n.String + b.c.SmoothingParameter ≤
          vA.get n.String + b.c.SmoothingParameter)
    apply Real.log_le_log (div_pos hposB hden)
    exact div_le_div_of_nonneg_right hmono hden.le
  · apply add_lt_add_left
    apply Real.log_lt_log <;> norm_num

theorem higher_counts_score_not_lower_witness :
    0 < ((New ⟨1, 1⟩).trainAll [("I love this", "positive"), ("I hate this", "negative")]).c.SmoothingParameter
    ∧ ((New ⟨1, 1⟩).trainAll [("I love this", "positive"), ("I hate this", "negative")]).countByLabel.get "positive" =
      ((New ⟨1, 1⟩).trainAll [("I love this", "positive"), ("I hate this", "negative")]).countByLabel.get "negative"
    ∧ ∃ x y,
      ScoreIs (((New ⟨1, 1⟩).trainAll [("I love this", "positive"), ("I hate this", "negative")]).GetResults "love") "positive" x
      ∧ ScoreIs (((New ⟨1, 1⟩).trainAll [("I love this", "positive"), ("I hate this", "negative")]).GetResults "love") "negative" y
      ∧ y ≤ x :=
  have hsome : ∀ o : Option Vocabulary, o.isSome = true → o = some (o.getD ∅) := by
    intro o h
    cases o with
    | none => cases h
    | some v => rfl
  ⟨by decide, by decide,
    (higher_counts_score_not_lower ⟨1, 1⟩
      [("I love this", "positive"), ("I hate this", "negative")]
      ((New ⟨1, 1⟩).trainAll [("I love this", "positive"), ("I hate this", "negative")])
      "positive" "negative" "love"
      ((Finmap.lookup "positive" ((New ⟨1, 1⟩).trainAll [("I love this", "positive"), ("I hate this", "negative")]).vocabByLabel).getD ∅)
      ((Finmap.lookup "negative" ((New ⟨1, 1⟩).trainAll [("I love this", "positive"), ("I hate this", "negative")]).vocabByLabel).getD ∅)
      rfl (by decide) (hsome _ (by decide)) (hsome _ (by decide)) (by decide) (by decide)
      (by decide) (by decide)).1⟩

/-- C17: the smoothed per-feature ratio is not bounded by 1.  With window
length 1 and smoothing 1, after the single call `Train("a a a a", "x")`, whose
n-gram keys are `["a", "a", "a", "a"]`, the query `"a"` has the single key
`"a"`, its ratio `(4 + 1) / (1 + 1)` is `5/2 > 1`, and the score of `"x"` is
`log(1/1) + log(5/2) > 0`. -/
theorem ratio_above_one :
    keysOf "a a a a" (New ⟨1, 1⟩).c.NGramSize = ["a", "a", "a", "a"]
    ∧ keysOf "a" ((New ⟨1, 1⟩).trainAll [("a a a a", "x")]).c.NGramSize = ["a"]
    ∧ (((((Finmap.lookup "x" ((New ⟨1, 1⟩).trainAll [("a a a a", "x")]).vocabByLabel).getD ∅).get "a" +
          ((New ⟨1, 1⟩).trainAll [("a a a a", "x")]).c.SmoothingParameter : Int) : ℝ) /
        ((((New ⟨1, 1⟩).trainAll [("a a a a", "x")]).countByLabel.get "x" +
          ((Finmap.lookup "x" ((New ⟨1, 1⟩).trainAll [("a a a a", "x")]).vocabByLabel).getD ∅).len : Int) : ℝ) = 5 / 2)
    ∧ (1 : ℝ) < 5 / 2
    ∧ ScoreIs (((New ⟨1, 1⟩).trainAll [("a a a a", "x")]).GetResults "a") "x" (Real.log (1 / 1) + Real.log (5 / 2))
    ∧ 0 < Real.log (1 / 1) + Real.log (5 / 2) := by
  have hnum : ((Finmap.lookup "x" ((New ⟨1, 1⟩).trainAll [("a a a a", "x")]).vocabByLabel).getD ∅).get "a" +
      ((New ⟨1, 1⟩).trainAll [("a a a a", "x")]).c.SmoothingParameter = 5 := by decide
  have hden : ((New ⟨1, 1⟩).trainAll [("a a a a", "x")]).countByLabel.get "x" +
      ((Finmap.lookup "x" ((New ⟨1, 1⟩).trainAll [("a a a a", "x")]).vocabByLabel).getD ∅).len = 2 := by decide
  refine ⟨by decide, by decide, ?_, by norm_num, ?_, ?_⟩
  · rw [hnum, hden]
    norm_num
  · refine ⟨.add (.log (.div (.ofInt 1) (.ofInt 1))) (.log (.div (.ofInt 5) (.ofInt 2))),
      by decide, ?_⟩
    have h1 : toFloat64 1 = 1 := by decide
    have h2 : toFloat64 2 = 2 := by decide
    have h5 : toFloat64 5 = 5 := by decide
    unfold FloatExpr.IsReal
    simp only [FloatExpr.Defined, FloatExpr.eval, h1, h2, h5]
    norm_num
  · have h : 0 < Real.log (5 / 2) := Real.log_pos (by norm_num)
    simpa using h

end NaiveBayes
